import Mathlib

/-!
Verification development for the pk11-uri-parser crate, a parser and
validator for PKCS#11 URIs (RFC7512).

The Rust sources are embedded shallowly over `List Char`.  The original
operates on UTF-8 byte slices; offsets are modelled as character indices,
which coincide with byte indices on ASCII text, and every concrete input
whose error span is examined is ASCII.  Rust `str::trim` is embedded with
the full Unicode White_Space set of `char::is_whitespace`
(`rustWhitespaceChars`).  Rust `String` values appearing in errors carry a
violation text plus a help text; each distinct violation format string of
the source is modelled as one constructor of the `Violation` inductive
(payloads stand for the values formatted into the text), and the purely
presentational help text is elided.  The digit class `\d` of the two
validation regexes is embedded as the ABNF `DIGIT` documented in their
violation texts; see `isDigits` for the recorded divergence of the regex
crate default from that documentation.
-/

set_option maxRecDepth 8000

/-- The distinct RFC7512 violations reported by the crate, one constructor
per distinct violation format string in the source. -/
inductive Violation where
  /-- lib.rs: issued when the input does not start with the scheme. -/
  | invalidScheme
  /-- macros.rs `PK11Attr::try_from`: fragment has no `=`. -/
  | malformedComponent
  /-- common.rs `VendorAttribute::try_from`: empty attribute name. -/
  | missingAttributeName
  /-- common.rs: name collides with a standard path-component attribute. -/
  | pathNamingCollision
  /-- common.rs: name collides with a standard query-component attribute. -/
  | queryNamingCollision
  /-- common.rs: vendor name has a character outside alphanumeric, `-`, `_`. -/
  | invalidVendorAttrName
  /-- common.rs `common_validation`: value contains a literal space. -/
  | valueContainsSpace
  /-- common.rs `common_validation`: value contains a literal `#`. -/
  | valueContainsHash
  /-- pk11_pattr.rs: path value contains a literal `/`. -/
  | pathValueContainsSlash
  /-- pk11_pattr.rs: `type` value outside its five-member enumeration. -/
  | invalidTypeValue
  /-- pk11_pattr.rs: `library-version` value fails its digit pattern. -/
  | invalidLibraryVersion
  /-- pk11_pattr.rs: `slot-id` value fails its digit pattern. -/
  | invalidSlotId
  /-- macros.rs path assign: duplicate standard path attribute name. -/
  | duplicatePathStandard (attr : List Char)
  /-- macros.rs path assign: duplicate vendor attribute name in the path. -/
  | duplicatePathVendor (vendorName : List Char)
  /-- macros.rs query assign: duplicate standard query attribute name. -/
  | duplicateQueryStandard (attr : List Char)
  /-- lib.rs: reclassification of an empty path fragment. -/
  | misplacedPathDelimiter
  /-- lib.rs: reclassification of an empty query fragment. -/
  | misplacedQueryDelimiter
  deriving DecidableEq

/-- lib.rs `PK11URIError` (violation and help strings collapsed to
`Violation`, see the module comment). -/
structure PK11URIError where
  pk11_uri : List Char
  error_span : Nat × Nat
  violation : Violation
  deriving DecidableEq

/-- lib.rs `PKCS11_SCHEME`. -/
def schemeChars : List Char := "pkcs11:".toList

/-- lib.rs `tidy`: remove newline and tab formatting. -/
def tidy (maybe_messy : List Char) : List Char :=
  maybe_messy.filter (fun c => !(c == '\n' || c == '\t'))

/-- The 25 code points with the Unicode White_Space property, the exact
set stripped by Rust `char::is_whitespace`. -/
def rustWhitespaceChars : List Char :=
  ['\t', '\n', '\u000b', '\u000c', '\r', ' ', '\u0085', '\u00a0', '\u1680',
   '\u2000', '\u2001', '\u2002', '\u2003', '\u2004', '\u2005', '\u2006',
   '\u2007', '\u2008', '\u2009', '\u200a', '\u2028', '\u2029', '\u202f',
   '\u205f', '\u3000']

/-- Rust `char::is_whitespace`: the Unicode White_Space property. -/
def rustIsWhitespace (c : Char) : Bool :=
  rustWhitespaceChars.contains c

/-- Rust `str::trim` (both ends, Unicode White_Space). -/
def trimChars (s : List Char) : List Char :=
  ((s.dropWhile rustIsWhitespace).reverse.dropWhile rustIsWhitespace).reverse

/-- Rust `str::split_once`: split at the first occurrence of `sep`. -/
def splitOnce (sep : Char) : List Char → Option (List Char × List Char)
  | [] => none
  | c :: rest =>
    if c = sep then some ([], rest)
    else
      match splitOnce sep rest with
      | none => none
      | some (l, r) => some (c :: l, r)

/-- Rust `str::split(sep)`: fragments between occurrences of `sep`,
empty fragments included; yields one fragment more than delimiters. -/
def splitOnChar (sep : Char) : List Char → List (List Char)
  | [] => [[]]
  | c :: rest =>
    if c = sep then [] :: splitOnChar sep rest
    else
      match splitOnChar sep rest with
      | [] => [[c]]
      | f :: fs => (c :: f) :: fs

/-- Rust `str::find(&substr)`: index of the first occurrence of `pat`. -/
def findSubIdx (pat : List Char) : List Char → Option Nat
  | [] => if pat.isEmpty then some 0 else none
  | c :: tl =>
    if pat.isPrefixOf (c :: tl) then some 0
    else (findSubIdx pat tl).map (· + 1)

/-- Rust `str::find(char)`: index of the first occurrence of `c`. -/
def charIdx (c : Char) : List Char → Option Nat
  | [] => none
  | a :: rest => if a = c then some 0 else (charIdx c rest).map (· + 1)

/-- Indices of the occurrences of `c` in `s`
(Rust `str::match_indices` on a single character). -/
def matchIndicesChar (s : List Char) (c : Char) : List Nat :=
  (s.enum.filter (fun p => p.2 == c)).map (fun p => p.1)

/-- lib.rs `find_empty_attr_index`: position of the `split_count`-th
delimiter occurrence, falling back to the last index of `tidy_attr`
(Rust `unwrap_or((tidy_attr.len() - 1, "_"))`; `Nat` subtraction stands
for the `usize` subtraction, which in the source only ever runs on a
non-empty `tidy_attr` in the cases settled here). -/
def find_empty_attr_index (tidy_attr : List Char) (split_count : Nat) (delimiter : Char) : Nat :=
  match (matchIndicesChar tidy_attr delimiter).get? split_count with
  | some i => i
  | none => tidy_attr.length - 1

/-- The 13 standard path-attribute kinds (pk11_pattr.rs `path_attributes!`). -/
inductive PathAttrName where
  | token | manufacturer | serial | model
  | library_manufacturer | library_version | library_description
  | object | type | id
  | slot_description | slot_manufacturer | slot_id
  deriving DecidableEq

/-- The 4 standard query-attribute kinds (pk11_qattr.rs `query_attributes!`). -/
inductive QueryAttrName where
  | pin_source | pin_value | module_name | module_path
  deriving DecidableEq

/-- The literal text paired with each path attribute by the macro table. -/
def pattrText : PathAttrName → List Char
  | .token => "token".toList
  | .manufacturer => "manufacturer".toList
  | .serial => "serial".toList
  | .model => "model".toList
  | .library_manufacturer => "library-manufacturer".toList
  | .library_version => "library-version".toList
  | .library_description => "library-description".toList
  | .object => "object".toList
  | .type => "type".toList
  | .id => "id".toList
  | .slot_description => "slot-description".toList
  | .slot_manufacturer => "slot-manufacturer".toList
  | .slot_id => "slot-id".toList

/-- The literal text paired with each query attribute by the macro table. -/
def qattrText : QueryAttrName → List Char
  | .pin_source => "pin-source".toList
  | .pin_value => "pin-value".toList
  | .module_name => "module-name".toList
  | .module_path => "module-path".toList

/-- All standard path attributes, in macro-table order. -/
def allPathAttrs : List PathAttrName :=
  [.token, .manufacturer, .serial, .model,
   .library_manufacturer, .library_version, .library_description,
   .object, .type, .id,
   .slot_description, .slot_manufacturer, .slot_id]

/-- All standard query attributes, in macro-table order. -/
def allQueryAttrs : List QueryAttrName :=
  [.pin_source, .pin_value, .module_name, .module_path]

/-- The misplaced-path-attribute array in common.rs `VendorAttribute::try_from`. -/
def pathAttrTexts : List (List Char) :=
  ["token".toList, "manufacturer".toList, "serial".toList, "model".toList,
   "library-manufacturer".toList, "library-version".toList,
   "library-description".toList, "object".toList, "type".toList, "id".toList,
   "slot-description".toList, "slot-manufacturer".toList, "slot-id".toList]

/-- The misplaced-query-attribute array in common.rs `VendorAttribute::try_from`. -/
def queryAttrTexts : List (List Char) :=
  ["pin-source".toList, "pin-value".toList, "module-name".toList,
   "module-path".toList]

/-- common.rs: the `1*pk11-v-attr-nm-char` character rule, with the
alphanumeric test taken in its ASCII reading.  Rust
`char::is_alphanumeric` additionally accepts non-ASCII letters and
digits, a difference visible only on vendor names containing such
characters; no statement below turns on acceptance of such a name (the
universally quantified ones either restrict names to this alphabet in
their hypotheses or do not depend on the charset branch at all). -/
def vendorNameChar (c : Char) : Bool :=
  c.isAlphanum || c == '-' || c == '_'

/-- common.rs `VendorAttribute::try_from`. -/
def VendorAttribute.tryFrom (vendor_attr : List Char) : Except Violation (List Char) :=
  if vendor_attr = [] then .error .missingAttributeName
  else if pathAttrTexts.contains vendor_attr then .error .pathNamingCollision
  else if queryAttrTexts.contains vendor_attr then .error .queryNamingCollision
  else if !(vendor_attr.all vendorNameChar) then .error .invalidVendorAttrName
  else .ok vendor_attr

/-- The path-component attribute enum produced by `path_attributes!`
(13 standard variants, collapsed into `std`, plus `VAttr`). -/
inductive PK11PAttr where
  | std (s : PathAttrName)
  | VAttr (name : List Char)
  deriving DecidableEq

/-- The query-component attribute enum produced by `query_attributes!`. -/
inductive PK11QAttr where
  | std (q : QueryAttrName)
  | VAttr (name : List Char)
  deriving DecidableEq

/-- macros.rs `PK11Attribute::try_from`, path instantiation: exact match
against the standard names, vendor fallback otherwise. -/
def PK11PAttr.tryFrom (value : List Char) : Except Violation PK11PAttr :=
  match allPathAttrs.find? (fun s => pattrText s == value) with
  | some s => .ok (.std s)
  | none => (VendorAttribute.tryFrom value).map .VAttr

/-- macros.rs `PK11Attribute::try_from`, query instantiation. -/
def PK11QAttr.tryFrom (value : List Char) : Except Violation PK11QAttr :=
  match allQueryAttrs.find? (fun q => qattrText q == value) with
  | some q => .ok (.std q)
  | none => (VendorAttribute.tryFrom value).map .VAttr

/-- common.rs `common_validation`: no literal space, no literal `#`. -/
def common_validation (value : List Char) : Option Violation :=
  if value.contains ' ' then some .valueContainsSpace
  else if value.contains '#' then some .valueContainsHash
  else none

/-- pk11_pattr.rs: the `type` enumeration. -/
def typeValues : List (List Char) :=
  ["public".toList, "private".toList, "cert".toList,
   "secret-key".toList, "data".toList]

/-- One or more decimal digits, with a digit read as the ABNF `DIGIT`
(ASCII `0`-`9`) that the violation texts of pk11_pattr.rs quote. The
shipped regexes spell this class `\d`, which under the regex crate
default also matches every non-ASCII Unicode decimal digit (such as
U+0663); that departure from the documented `1*DIGIT` is treated here
as a defect of the source, not as the behaviour to embed. -/
def isDigits (s : List Char) : Bool :=
  !s.isEmpty && s.all Char.isDigit

/-- pk11_pattr.rs `LIBRARY_VERSION_REGEX`: the language of
`^\d+(\.\d+){0,1}$` expressed over the split on the dot, with `\d` read
as the ABNF `DIGIT` as in `isDigits`. -/
def libraryVersionMatch (value : List Char) : Bool :=
  match splitOnChar '.' value with
  | [major] => isDigits major
  | [major, minor] => isDigits major && isDigits minor
  | _ => false

/-- pk11_pattr.rs `SLOT_ID_REGEX`: the language of `^\d+$`, with `\d`
read as the ABNF `DIGIT` as in `isDigits`. -/
def slotIdMatch (value : List Char) : Bool :=
  isDigits value

/-- pk11_pattr.rs `Validation::validate` for the path attribute enum. -/
def PK11PAttr.validate (a : PK11PAttr) (value : List Char) : Except Violation Unit :=
  match a with
  | .std .type =>
    if typeValues.contains value then .ok () else .error .invalidTypeValue
  | .std .library_version =>
    if libraryVersionMatch value then .ok () else .error .invalidLibraryVersion
  | .std .slot_id =>
    if slotIdMatch value then .ok () else .error .invalidSlotId
  | _ =>
    match common_validation value with
    | some v => .error v
    | none =>
      if value.contains '/' then .error .pathValueContainsSlash else .ok ()

/-- pk11_qattr.rs `PK11QAttr::validate`: the common rule only. -/
def PK11QAttr.validate (_a : PK11QAttr) (value : List Char) : Except Violation Unit :=
  match common_validation value with
  | some v => .error v
  | none => .ok ()

/-- lib.rs `PK11URIMapping` (values are slices of the input, here char lists;
the vendor `HashMap<&str, Vec<&str>>` is an association list). -/
structure PK11URIMapping where
  token : Option (List Char) := none
  manufacturer : Option (List Char) := none
  serial : Option (List Char) := none
  model : Option (List Char) := none
  library_manufacturer : Option (List Char) := none
  library_version : Option (List Char) := none
  library_description : Option (List Char) := none
  object : Option (List Char) := none
  type : Option (List Char) := none
  id : Option (List Char) := none
  slot_description : Option (List Char) := none
  slot_manufacturer : Option (List Char) := none
  slot_id : Option (List Char) := none
  pin_source : Option (List Char) := none
  pin_value : Option (List Char) := none
  module_name : Option (List Char) := none
  module_path : Option (List Char) := none
  vendor : List (List Char × List (List Char)) := []
  deriving DecidableEq

/-- Field read of the slot selected by a path attribute kind
(the macro reads `mapping.$name` in the arm for `$name`). -/
def slotGet (s : PathAttrName) (m : PK11URIMapping) : Option (List Char) :=
  match s with
  | .token => m.token
  | .manufacturer => m.manufacturer
  | .serial => m.serial
  | .model => m.model
  | .library_manufacturer => m.library_manufacturer
  | .library_version => m.library_version
  | .library_description => m.library_description
  | .object => m.object
  | .type => m.type
  | .id => m.id
  | .slot_description => m.slot_description
  | .slot_manufacturer => m.slot_manufacturer
  | .slot_id => m.slot_id

/-- Field write of the slot selected by a path attribute kind. -/
def slotSet (s : PathAttrName) (v : List Char) (m : PK11URIMapping) : PK11URIMapping :=
  match s with
  | .token => { m with token := some v }
  | .manufacturer => { m with manufacturer := some v }
  | .serial => { m with serial := some v }
  | .model => { m with model := some v }
  | .library_manufacturer => { m with library_manufacturer := some v }
  | .library_version => { m with library_version := some v }
  | .library_description => { m with library_description := some v }
  | .object => { m with object := some v }
  | .type => { m with type := some v }
  | .id => { m with id := some v }
  | .slot_description => { m with slot_description := some v }
  | .slot_manufacturer => { m with slot_manufacturer := some v }
  | .slot_id => { m with slot_id := some v }

/-- Field read of the slot selected by a query attribute kind. -/
def qslotGet (q : QueryAttrName) (m : PK11URIMapping) : Option (List Char) :=
  match q with
  | .pin_source => m.pin_source
  | .pin_value => m.pin_value
  | .module_name => m.module_name
  | .module_path => m.module_path

/-- Field write of the slot selected by a query attribute kind. -/
def qslotSet (q : QueryAttrName) (v : List Char) (m : PK11URIMapping) : PK11URIMapping :=
  match q with
  | .pin_source => { m with pin_source := some v }
  | .pin_value => { m with pin_value := some v }
  | .module_name => { m with module_name := some v }
  | .module_path => { m with module_path := some v }

/-- lib.rs `PK11URIMapping::vendor` (`HashMap::get`). -/
def PK11URIMapping.vendorGet (m : PK11URIMapping) (vendor_attr : List Char) :
    Option (List (List Char)) :=
  (m.vendor.find? (fun e => e.1 == vendor_attr)).map (fun e => e.2)

/-- `HashMap::insert` of a fresh singleton entry (path vendor assignment). -/
def vendorInsert (tbl : List (List Char × List (List Char))) (name : List Char)
    (v : List Char) : List (List Char × List (List Char)) :=
  tbl ++ [(name, [v])]

/-- `HashMap::entry(..).or_default().push(v)` (query vendor assignment). -/
def vendorPush (tbl : List (List Char × List (List Char))) (name : List Char)
    (v : List Char) : List (List Char × List (List Char)) :=
  match tbl with
  | [] => [(name, [v])]
  | e :: rest =>
    if e.1 = name then (e.1, e.2 ++ [v]) :: rest
    else e :: vendorPush rest name v

/-- macros.rs `PK11PAttr::assign` (validation build): standard slots and
path vendor entries are single-valued. -/
def PK11PAttr.assign (a : PK11PAttr) (value : List Char) (m : PK11URIMapping) :
    Except Violation PK11URIMapping :=
  match a with
  | .std s =>
    match slotGet s m with
    | none => .ok (slotSet s value m)
    | some _ => .error (.duplicatePathStandard (pattrText s))
  | .VAttr name =>
    match m.vendorGet name with
    | none => .ok { m with vendor := vendorInsert m.vendor name value }
    | some _ => .error (.duplicatePathVendor name)

/-- macros.rs `PK11QAttr::assign` (validation build): standard slots are
single-valued, vendor values accumulate. -/
def PK11QAttr.assign (a : PK11QAttr) (value : List Char) (m : PK11URIMapping) :
    Except Violation PK11URIMapping :=
  match a with
  | .std q =>
    match qslotGet q m with
    | none => .ok (qslotSet q value m)
    | some _ => .error (.duplicateQueryStandard (qattrText q))
  | .VAttr name => .ok { m with vendor := vendorPush m.vendor name value }

/-- macros.rs `PK11Attr::try_from`, first step: split at the first `=`
and trim name and value. -/
def extractNameValue (pk11_attr : List Char) : Option (List Char × List Char) :=
  (splitOnce '=' pk11_attr).map (fun p => (trimChars p.1, trimChars p.2))

/-- pk11_pattr.rs `assign`: `PathAttribute::try_from` then `PK11PAttr::assign`. -/
def pk11_pattr.assign (pk11_pattr : List Char) (m : PK11URIMapping) :
    Except Violation PK11URIMapping :=
  match extractNameValue pk11_pattr with
  | none => .error .malformedComponent
  | some (attrName, value) =>
    match PK11PAttr.tryFrom attrName with
    | .error e => .error e
    | .ok attr =>
      match attr.validate value with
      | .error e => .error e
      | .ok _ => attr.assign value m

/-- pk11_qattr.rs `assign`: `QueryAttribute::try_from` then `PK11QAttr::assign`. -/
def pk11_qattr.assign (pk11_qattr : List Char) (m : PK11URIMapping) :
    Except Violation PK11URIMapping :=
  match extractNameValue pk11_qattr with
  | none => .error .malformedComponent
  | some (attrName, value) =>
    match PK11QAttr.tryFrom attrName with
    | .error e => .error e
    | .ok attr =>
      match attr.validate value with
      | .error e => .error e
      | .ok _ => attr.assign value m

/-- lib.rs `parse`, the `map_err` closure of the path pass: positions a
validation error, reclassifying an empty tidied fragment to a misplaced
delimiter. -/
def pathErr (pk11_uri pk11_path pk11_pattr : List Char) (count : Nat)
    (ve : Violation) : PK11URIError :=
  let tidy_pk11_uri := tidy pk11_uri
  let tidy_pk11_path := tidy pk11_path
  let tidy_pk11_pattr := tidy pk11_pattr
  let positioned : Violation × Nat :=
    if tidy_pk11_pattr ≠ [] then
      (ve, (findSubIdx tidy_pk11_pattr tidy_pk11_path).getD 0 + schemeChars.length)
    else
      (.misplacedPathDelimiter,
        find_empty_attr_index tidy_pk11_path count ';' + schemeChars.length)
  { pk11_uri := tidy_pk11_uri,
    error_span := (positioned.2, positioned.2 + tidy_pk11_pattr.length),
    violation := positioned.1 }

/-- lib.rs `parse`, the `map_err` closure of the query pass. -/
def queryErr (pk11_uri pk11_query pk11_qattr : List Char) (count : Nat)
    (ve : Violation) : PK11URIError :=
  let tidy_pk11_uri := tidy pk11_uri
  let tidy_pk11_query := tidy pk11_query
  let tidy_pk11_qattr := tidy pk11_qattr
  let base := (charIdx '?' tidy_pk11_uri).getD 0 + 1
  let positioned : Violation × Nat :=
    if tidy_pk11_qattr ≠ [] then
      (ve, (findSubIdx tidy_pk11_qattr tidy_pk11_query).getD 0 + base)
    else
      (.misplacedQueryDelimiter,
        find_empty_attr_index tidy_pk11_query count '&' + base)
  { pk11_uri := tidy_pk11_uri,
    error_span := (positioned.2, positioned.2 + tidy_pk11_qattr.length),
    violation := positioned.1 }

/-- lib.rs `parse`, the `try_for_each` over the enumerated path fragments,
with the mutable mapping made explicit. -/
def processPath (pk11_uri pk11_path : List Char) (count : Nat)
    (frags : List (List Char)) (m : PK11URIMapping) :
    Except PK11URIError PK11URIMapping :=
  match frags with
  | [] => .ok m
  | frag :: rest =>
    match pk11_pattr.assign frag m with
    | .error ve => .error (pathErr pk11_uri pk11_path frag count ve)
    | .ok m2 => processPath pk11_uri pk11_path (count + 1) rest m2

/-- lib.rs `parse`, the `try_for_each` over the enumerated query fragments. -/
def processQuery (pk11_uri pk11_query : List Char) (count : Nat)
    (frags : List (List Char)) (m : PK11URIMapping) :
    Except PK11URIError PK11URIMapping :=
  match frags with
  | [] => .ok m
  | frag :: rest =>
    match pk11_qattr.assign frag m with
    | .error ve => .error (queryErr pk11_uri pk11_query frag count ve)
    | .ok m2 => processQuery pk11_uri pk11_query (count + 1) rest m2

/-- lib.rs `parse`: `pk11_uri.find('?')`. -/
def queryIdx (pk11_uri : List Char) : Option Nat :=
  charIdx '?' pk11_uri

/-- lib.rs `parse`: the path region
`pk11_uri[PKCS11_SCHEME_LEN .. query_component_index.unwrap_or(len)]`. -/
def pathRegion (pk11_uri : List Char) : List Char :=
  (pk11_uri.take ((queryIdx pk11_uri).getD pk11_uri.length)).drop schemeChars.length

/-- lib.rs `parse`, path pass: skipped when the region is empty. -/
def parsePathPhase (pk11_uri : List Char) : Except PK11URIError PK11URIMapping :=
  let pk11_path := pathRegion pk11_uri
  if pk11_path = [] then .ok {}
  else processPath pk11_uri pk11_path 0 (splitOnChar ';' pk11_path) {}

/-- lib.rs `parse`. -/
def parse (pk11_uri : List Char) : Except PK11URIError PK11URIMapping :=
  if !(schemeChars.isPrefixOf pk11_uri) then
    .error { pk11_uri := tidy pk11_uri, error_span := (0, 0),
             violation := .invalidScheme }
  else
    match parsePathPhase pk11_uri with
    | .error e => .error e
    | .ok mapping =>
      match queryIdx pk11_uri with
      | none => .ok mapping
      | some q =>
        let pk11_query := pk11_uri.drop (q + 1)
        if pk11_query = [] then .ok mapping
        else processQuery pk11_uri pk11_query 0 (splitOnChar '&' pk11_query) mapping

deriving instance DecidableEq for Except

/-- Projection of a parse outcome onto the reported violation, if any. -/
def errViolation (r : Except PK11URIError PK11URIMapping) : Option Violation :=
  match r with
  | .error e => some e.violation
  | .ok _ => none

/-- Projection of a parse outcome onto the reported error span, if any. -/
def errSpan (r : Except PK11URIError PK11URIMapping) : Option (Nat × Nat) :=
  match r with
  | .error e => some e.error_span
  | .ok _ => none

/-- The index of the `n`-th (0-based) occurrence of `c` in `s`, when at
least `n + 1` occurrences exist. -/
def nthMatchIdx (s : List Char) (c : Char) (n : Nat) : Option Nat :=
  (matchIndicesChar s c).get? n

/-- Follows the spec (section 4.5): one or more decimal digits. -/
def specDigits (s : List Char) : Bool :=
  !s.isEmpty && s.all Char.isDigit

/-- Follows the spec (section 4.5): the `library-version` value shape,
one or more digits optionally followed by a dot and one or more digits
(major required, dot-minor optional); stated independently of the
regular-expression machinery of the source. -/
def specLibraryVersion (v : List Char) : Bool :=
  match splitOnce '.' v with
  | none => specDigits v
  | some (major, minor) => specDigits major && specDigits minor

/-- Follows the spec (section 4.4): the standard path vocabulary. -/
def specPathVocab : List (List Char) :=
  ["token".toList, "manufacturer".toList, "serial".toList, "model".toList,
   "library-manufacturer".toList, "library-version".toList,
   "library-description".toList, "object".toList, "type".toList, "id".toList,
   "slot-description".toList, "slot-manufacturer".toList, "slot-id".toList]

/-- Follows the spec (section 4.4): the standard query vocabulary. -/
def specQueryVocab : List (List Char) :=
  ["pin-source".toList, "pin-value".toList, "module-name".toList,
   "module-path".toList]

/-- Follows the spec (section 4.5): the `type` enumeration. -/
def specTypeValues : List (List Char) :=
  ["public".toList, "private".toList, "cert".toList,
   "secret-key".toList, "data".toList]

/-- Follows the spec (section 4.4): an attribute name is one or more
characters drawn from alphanumerics, `-`, `_`. -/
def specNameOK (n : List Char) : Bool :=
  !n.isEmpty && n.all (fun c => c.isAlphanum || c == '-' || c == '_')

/-- A path value in grammar-accepted text: free of whitespace (the full
Unicode White_Space set the program trims) and of `#`, and free of the
delimiters `;` and `?` that bound path fragments. -/
def specPathValueChars (v : List Char) : Bool :=
  v.all (fun c => !rustIsWhitespace c && !(c == '#') && !(c == ';') && !(c == '?'))

/-- A query value in grammar-accepted text: free of whitespace (the full
Unicode White_Space set the program trims) and of `#`, and free of the
delimiter `&` that bounds query fragments. -/
def specQueryValueChars (v : List Char) : Bool :=
  v.all (fun c => !rustIsWhitespace c && !(c == '#') && !(c == '&'))

/-- Follows the spec (sections 4.4 and 4.5): acceptance of one path
attribute, name and value. -/
def specPathAttrOK (p : List Char × List Char) : Bool :=
  specNameOK p.1 && !(specQueryVocab.contains p.1) &&
  specPathValueChars p.2 &&
  (if p.1 = "type".toList then specTypeValues.contains p.2
   else if p.1 = "library-version".toList then specLibraryVersion p.2
   else if p.1 = "slot-id".toList then specDigits p.2
   else !(p.2.contains '/'))

/-- Follows the spec (sections 4.4 and 4.5): acceptance of one query
attribute, name and value. -/
def specQueryAttrOK (p : List Char × List Char) : Bool :=
  specNameOK p.1 && !(specPathVocab.contains p.1) && specQueryValueChars p.2

/-- Pairwise distinctness of a name list. -/
def distinctNames (l : List (List Char)) : Bool :=
  match l with
  | [] => true
  | n :: rest => !(rest.contains n) && distinctNames rest

/-- A grammar-shaped PKCS#11 URI: the attribute lists of its path and,
optionally, of its query (`none` = no `?` present). -/
structure SpecURI where
  pathAttrs : List (List Char × List Char)
  queryAttrs : Option (List (List Char × List Char))

/-- Follows the spec (sections 4.4 to 4.6): the URI is accepted by the
grammar and by every validation rule — each attribute is well-formed,
path names occur at most once, and standard query names occur at most
once (query vendor names may repeat). -/
def SpecURI.OK (g : SpecURI) : Bool :=
  g.pathAttrs.all specPathAttrOK
  && distinctNames (g.pathAttrs.map Prod.fst)
  && (match g.queryAttrs with
      | none => true
      | some qs =>
        !qs.isEmpty && qs.all specQueryAttrOK
        && distinctNames ((qs.map Prod.fst).filter (fun n => specQueryVocab.contains n)))

/-- Interleave `sep` between the fragments. -/
def joinSep (sep : Char) : List (List Char) → List Char
  | [] => []
  | [f] => f
  | f :: fs => f ++ sep :: joinSep sep fs

/-- An attribute rendered as grammar text, `name "=" value`. -/
def specFragment (p : List Char × List Char) : List Char :=
  p.1 ++ '=' :: p.2

/-- The grammar text of a `SpecURI`:
`"pkcs11:" pk11-path [ "?" pk11-query ]`. -/
def assembleURI (g : SpecURI) : List Char :=
  "pkcs11:".toList
    ++ joinSep ';' (g.pathAttrs.map specFragment)
    ++ (match g.queryAttrs with
        | none => []
        | some qs => '?' :: joinSep '&' (qs.map specFragment))

/-- First value bound to `n` in an association list of attributes. -/
def assocFind (n : List Char) : List (List Char × List Char) → Option (List Char)
  | [] => none
  | p :: rest => if p.1 = n then some p.2 else assocFind n rest

/-- Invariant of the path pass: the standard slots hold exactly the values
of the attributes already processed, vendor entries only exist for names
already processed, and the query slots are untouched. -/
def PathInv (done : List (List Char × List Char)) (m : PK11URIMapping) : Prop :=
  (∀ s : PathAttrName, slotGet s m = assocFind (pattrText s) done)
  ∧ (∀ n : List Char, m.vendorGet n ≠ none → n ∈ done.map Prod.fst)
  ∧ (∀ q : QueryAttrName, qslotGet q m = none)

/-- Invariant of the query pass relative to the mapping `m0` left by the
path pass: path slots are untouched and the standard query slots hold
exactly the values of the query attributes already processed. -/
def QueryInv (qdone : List (List Char × List Char)) (m0 m : PK11URIMapping) : Prop :=
  (∀ s : PathAttrName, slotGet s m = slotGet s m0)
  ∧ (∀ q : QueryAttrName, qslotGet q m = assocFind (qattrText q) qdone)

/-- A value free of literal spaces and of literal `#` characters. -/
def valueClean (v : List Char) : Bool :=
  !(v.contains ' ') && !(v.contains '#')

/-- Every value reachable through the mapping is clean. -/
def mappingClean (m : PK11URIMapping) : Prop :=
  (∀ s : PathAttrName, ∀ v, slotGet s m = some v → valueClean v = true)
  ∧ (∀ q : QueryAttrName, ∀ v, qslotGet q m = some v → valueClean v = true)
  ∧ (∀ n l, m.vendorGet n = some l → ∀ v ∈ l, valueClean v = true)

/-- The spec example with a space inside a path value. -/
def exC6 : List Char :=
  "pkcs11:object=Private key for Card Authentication;pin-value=123456".toList

/-- A URI whose path ends in a spurious trailing delimiter. -/
def exC7 : List Char := "pkcs11:a=b;".toList

/-- A URI with a doubled path delimiter. -/
def exC7b : List Char := "pkcs11:a=b;;".toList

/-- A URI with a doubled query delimiter. -/
def exC7q : List Char := "pkcs11:?a=b&&".toList

/-- A concrete grammar-shaped URI used to instantiate the grammar claim. -/
def c1Example : SpecURI :=
  { pathAttrs := [("object".toList, "my-pubkey".toList),
                  ("type".toList, "public".toList)],
    queryAttrs := some [("pin-value".toList, "123456".toList)] }

/-! ### Basic lemmas about the string helpers -/

theorem dropWhile_eq_self_of_forall {p : Char → Bool} {l : List Char}
    (h : ∀ c ∈ l, p c = false) : l.dropWhile p = l := by
  cases l with
  | nil => rfl
  | cons c tl => simp [List.dropWhile_cons, h c (by simp)]

theorem trimChars_eq_self {s : List Char}
    (h : ∀ c ∈ s, rustIsWhitespace c = false) : trimChars s = s := by
  unfold trimChars
  rw [dropWhile_eq_self_of_forall h, dropWhile_eq_self_of_forall, List.reverse_reverse]
  intro c hc
  exact h c (by simpa using hc)

theorem splitOnce_eq_none_of_not_mem {sep : Char} {s : List Char} (h : sep ∉ s) :
    splitOnce sep s = none := by
  induction s with
  | nil => rfl
  | cons c tl ih =>
    simp only [List.mem_cons, not_or] at h
    have hcs : ¬ c = sep := fun hh => h.1 hh.symm
    simp only [splitOnce, if_neg hcs, ih h.2]

theorem splitOnce_append_first {sep : Char} {l r : List Char} (h : sep ∉ l) :
    splitOnce sep (l ++ sep :: r) = some (l, r) := by
  induction l with
  | nil => simp [splitOnce]
  | cons c tl ih =>
    simp only [List.mem_cons, not_or] at h
    have hcs : ¬ c = sep := fun hh => h.1 hh.symm
    have step : splitOnce sep ((c :: tl) ++ (sep :: r)) =
        match splitOnce sep (tl ++ sep :: r) with
        | none => none
        | some (l2, r2) => some (c :: l2, r2) := by
      simp [splitOnce, hcs]
    rw [step, ih h.2]

theorem splitOnce_eq_some {sep : Char} {s a b : List Char}
    (h : splitOnce sep s = some (a, b)) : s = a ++ sep :: b ∧ sep ∉ a := by
  induction s generalizing a b with
  | nil => simp [splitOnce] at h
  | cons c tl ih =>
    by_cases hc : c = sep
    · have hh : splitOnce sep (c :: tl) = some ([], tl) := by simp [splitOnce, hc]
      rw [hh] at h
      obtain ⟨rfl, rfl⟩ : [] = a ∧ tl = b := by simpa using h
      exact ⟨by rw [hc]; simp, by simp⟩
    · simp only [splitOnce, if_neg hc] at h
      cases hm : splitOnce sep tl with
      | none => rw [hm] at h; simp at h
      | some p =>
        rw [hm] at h
        simp only [Option.some.injEq] at h
        obtain ⟨h1, h2⟩ := ih (show splitOnce sep tl = some (p.1, p.2) by rw [hm])
        have ha : a = c :: p.1 := by
          have := congrArg Prod.fst h; simpa using this.symm
        have hb : b = p.2 := by
          have := congrArg Prod.snd h; simpa using this.symm
        subst ha; subst hb
        refine ⟨by rw [h1]; simp, ?_⟩
        simp only [List.mem_cons, not_or]
        exact ⟨fun hh => hc hh.symm, h2⟩

theorem splitOnChar_ne_nil (sep : Char) (s : List Char) : splitOnChar sep s ≠ [] := by
  cases s with
  | nil => simp [splitOnChar]
  | cons c tl =>
    simp only [splitOnChar]
    split
    · simp
    · split <;> simp

theorem splitOnChar_sep_cons (sep : Char) (rest : List Char) :
    splitOnChar sep (sep :: rest) = [] :: splitOnChar sep rest := by
  simp [splitOnChar]

theorem splitOnChar_of_not_mem {sep : Char} {s : List Char} (h : sep ∉ s) :
    splitOnChar sep s = [s] := by
  induction s with
  | nil => rfl
  | cons c tl ih =>
    simp only [List.mem_cons, not_or] at h
    have hcs : ¬ c = sep := fun hh => h.1 hh.symm
    simp only [splitOnChar, if_neg hcs, ih h.2]

theorem splitOnChar_append {sep : Char} {f rest : List Char} (h : sep ∉ f) :
    splitOnChar sep (f ++ sep :: rest) = f :: splitOnChar sep rest := by
  induction f with
  | nil => simp [splitOnChar]
  | cons c tl ih =>
    simp only [List.mem_cons, not_or] at h
    have hcs : ¬ c = sep := fun hh => h.1 hh.symm
    have step : splitOnChar sep ((c :: tl) ++ (sep :: rest)) =
        match splitOnChar sep (tl ++ sep :: rest) with
        | [] => [[c]]
        | f2 :: fs => (c :: f2) :: fs := by
      simp [splitOnChar, hcs]
    rw [step, ih h.2]

theorem joinSep_splitOnChar (sep : Char) (s : List Char) :
    joinSep sep (splitOnChar sep s) = s := by
  induction s with
  | nil => rfl
  | cons c tl ih =>
    by_cases hc : c = sep
    · subst hc
      rw [splitOnChar_sep_cons]
      cases hsp : splitOnChar c tl with
      | nil => exact absurd hsp (splitOnChar_ne_nil c tl)
      | cons f fs =>
        rw [hsp] at ih
        simp only [joinSep, List.nil_append]
        rw [ih]
    · simp only [splitOnChar, if_neg hc]
      cases hsp : splitOnChar sep tl with
      | nil => exact absurd hsp (splitOnChar_ne_nil sep tl)
      | cons f fs =>
        rw [hsp] at ih
        cases fs with
        | nil => simp only [joinSep] at ih ⊢; rw [ih]
        | cons g gs =>
          simp only [joinSep, List.cons_append] at ih ⊢
          rw [← ih]

theorem splitOnChar_length_eq (sep : Char) (s : List Char) :
    (splitOnChar sep s).length = s.count sep + 1 := by
  induction s with
  | nil => simp [splitOnChar]
  | cons c tl ih =>
    by_cases hc : c = sep
    · subst hc
      rw [splitOnChar_sep_cons]
      simp [List.count_cons, ih]
    · simp only [splitOnChar, if_neg hc]
      cases hsp : splitOnChar sep tl with
      | nil => exact absurd hsp (splitOnChar_ne_nil sep tl)
      | cons f fs =>
        rw [hsp] at ih
        simp only [List.length_cons] at ih ⊢
        rw [List.count_cons, if_neg (by simpa using hc)]
        simpa using ih

theorem mem_of_mem_joinSep {sep : Char} {fs : List (List Char)} {c : Char}
    (h : c ∈ joinSep sep fs) : c = sep ∨ ∃ f ∈ fs, c ∈ f := by
  induction fs with
  | nil => simp [joinSep] at h
  | cons f rest ih =>
    cases rest with
    | nil =>
      simp only [joinSep] at h
      exact Or.inr ⟨f, by simp, h⟩
    | cons g gs =>
      simp only [joinSep, List.mem_append, List.mem_cons] at h
      rcases h with h | h | h
      · exact Or.inr ⟨f, by simp, h⟩
      · exact Or.inl h
      · rcases ih h with h | ⟨f2, hf2, hc2⟩
        · exact Or.inl h
        · exact Or.inr ⟨f2, by simp [hf2], hc2⟩

theorem charIdx_append_of_not_mem {c : Char} {l1 l2 : List Char} (h : c ∉ l1) :
    charIdx c (l1 ++ l2) = (charIdx c l2).map (· + l1.length) := by
  induction l1 with
  | nil =>
    simp only [List.nil_append, List.length_nil]
    cases hx : charIdx c l2 <;> simp
  | cons a tl ih =>
    simp only [List.mem_cons, not_or] at h
    have hca : ¬ a = c := fun hh => h.1 hh.symm
    have step : charIdx c ((a :: tl) ++ l2) = (charIdx c (tl ++ l2)).map (· + 1) := by
      simp [charIdx, hca]
    rw [step, ih h.2]
    cases hx : charIdx c l2 <;> simp [Nat.add_assoc]

theorem charIdx_cons_self (c : Char) (r : List Char) :
    charIdx c (c :: r) = some 0 := by
  simp [charIdx]

theorem charIdx_eq_none_of_not_mem {c : Char} {l : List Char} (h : c ∉ l) :
    charIdx c l = none := by
  induction l with
  | nil => rfl
  | cons a tl ih =>
    simp only [List.mem_cons, not_or] at h
    have hca : ¬ a = c := fun hh => h.1 hh.symm
    simp [charIdx, if_neg hca, ih h.2]

/-! ### Lemmas about the mapping slots -/

theorem slotGet_slotSet_self (s : PathAttrName) (v : List Char) (m : PK11URIMapping) :
    slotGet s (slotSet s v m) = some v := by cases s <;> rfl

theorem slotGet_slotSet_ne {s t : PathAttrName} (h : ¬ t = s) (v : List Char)
    (m : PK11URIMapping) : slotGet t (slotSet s v m) = slotGet t m := by
  cases s <;> cases t <;> first | rfl | exact absurd rfl h

theorem qslotGet_slotSet (s : PathAttrName) (q : QueryAttrName) (v : List Char)
    (m : PK11URIMapping) : qslotGet q (slotSet s v m) = qslotGet q m := by
  cases s <;> cases q <;> rfl

theorem slotGet_qslotSet (q : QueryAttrName) (s : PathAttrName) (v : List Char)
    (m : PK11URIMapping) : slotGet s (qslotSet q v m) = slotGet s m := by
  cases q <;> cases s <;> rfl

theorem qslotGet_qslotSet_self (q : QueryAttrName) (v : List Char) (m : PK11URIMapping) :
    qslotGet q (qslotSet q v m) = some v := by cases q <;> rfl

theorem qslotGet_qslotSet_ne {q t : QueryAttrName} (h : ¬ t = q) (v : List Char)
    (m : PK11URIMapping) : qslotGet t (qslotSet q v m) = qslotGet t m := by
  cases q <;> cases t <;> first | rfl | exact absurd rfl h

theorem vendor_slotSet (s : PathAttrName) (v : List Char) (m : PK11URIMapping) :
    (slotSet s v m).vendor = m.vendor := by cases s <;> rfl

theorem vendor_qslotSet (q : QueryAttrName) (v : List Char) (m : PK11URIMapping) :
    (qslotSet q v m).vendor = m.vendor := by cases q <;> rfl

theorem vendorGet_slotSet (s : PathAttrName) (v : List Char) (m : PK11URIMapping)
    (n : List Char) : (slotSet s v m).vendorGet n = m.vendorGet n := by
  unfold PK11URIMapping.vendorGet
  rw [vendor_slotSet]

theorem vendorGet_qslotSet (q : QueryAttrName) (v : List Char) (m : PK11URIMapping)
    (n : List Char) : (qslotSet q v m).vendorGet n = m.vendorGet n := by
  unfold PK11URIMapping.vendorGet
  rw [vendor_qslotSet]

theorem slotGet_setVendor (m : PK11URIMapping) (t : List (List Char × List (List Char)))
    (s : PathAttrName) : slotGet s { m with vendor := t } = slotGet s m := by
  cases s <;> rfl

theorem qslotGet_setVendor (m : PK11URIMapping) (t : List (List Char × List (List Char)))
    (q : QueryAttrName) : qslotGet q { m with vendor := t } = qslotGet q m := by
  cases q <;> rfl

/-! ### Lemmas about the vocabularies and classification -/

theorem pattrText_mem (s : PathAttrName) : pattrText s ∈ pathAttrTexts := by
  cases s <;> decide

theorem qattrText_mem (q : QueryAttrName) : qattrText q ∈ queryAttrTexts := by
  cases q <;> decide

theorem pattrText_inj {s t : PathAttrName} (h : pattrText s = pattrText t) : s = t := by
  cases s <;> cases t <;> first | rfl | exact absurd h (by decide)

theorem qattrText_inj {q t : QueryAttrName} (h : qattrText q = qattrText t) : q = t := by
  cases q <;> cases t <;> first | rfl | exact absurd h (by decide)

theorem mem_pathAttrTexts_iff {n : List Char} :
    n ∈ pathAttrTexts ↔ ∃ s : PathAttrName, pattrText s = n := by
  constructor
  · intro h
    have : pathAttrTexts = allPathAttrs.map pattrText := by decide
    rw [this] at h
    obtain ⟨s, _, hs⟩ := List.mem_map.mp h
    exact ⟨s, hs⟩
  · rintro ⟨s, rfl⟩
    exact pattrText_mem s

theorem mem_queryAttrTexts_iff {n : List Char} :
    n ∈ queryAttrTexts ↔ ∃ q : QueryAttrName, qattrText q = n := by
  constructor
  · intro h
    have : queryAttrTexts = allQueryAttrs.map qattrText := by decide
    rw [this] at h
    obtain ⟨q, _, hq⟩ := List.mem_map.mp h
    exact ⟨q, hq⟩
  · rintro ⟨q, rfl⟩
    exact qattrText_mem q

theorem PK11PAttr_tryFrom_std (s : PathAttrName) :
    PK11PAttr.tryFrom (pattrText s) = .ok (.std s) := by
  cases s <;> rfl

theorem PK11QAttr_tryFrom_std (q : QueryAttrName) :
    PK11QAttr.tryFrom (qattrText q) = .ok (.std q) := by
  cases q <;> rfl

theorem find?_allPathAttrs_eq_none {n : List Char} (h : n ∉ pathAttrTexts) :
    allPathAttrs.find? (fun s => pattrText s == n) = none := by
  rw [List.find?_eq_none]
  intro s _ hbeq
  exact h (by rw [← beq_iff_eq.mp hbeq]; exact pattrText_mem s)

theorem find?_allQueryAttrs_eq_none {n : List Char} (h : n ∉ queryAttrTexts) :
    allQueryAttrs.find? (fun q => qattrText q == n) = none := by
  rw [List.find?_eq_none]
  intro q _ hbeq
  exact h (by rw [← beq_iff_eq.mp hbeq]; exact qattrText_mem q)

theorem not_mem_of_contains_eq_false {n : List Char} {l : List (List Char)}
    (h : l.contains n = false) : n ∉ l := by
  intro hm
  simp [hm] at h

theorem VendorAttribute_tryFrom_ok {n : List Char} (h1 : ¬ n = [])
    (h2 : pathAttrTexts.contains n = false) (h3 : queryAttrTexts.contains n = false)
    (h4 : n.all vendorNameChar = true) :
    VendorAttribute.tryFrom n = .ok n := by
  unfold VendorAttribute.tryFrom
  rw [if_neg h1, if_neg (by simpa using not_mem_of_contains_eq_false h2),
    if_neg (by simpa using not_mem_of_contains_eq_false h3)]
  simp [h4]

theorem PK11PAttr_tryFrom_vendor {n : List Char} (h1 : ¬ n = [])
    (h2 : pathAttrTexts.contains n = false) (h3 : queryAttrTexts.contains n = false)
    (h4 : n.all vendorNameChar = true) :
    PK11PAttr.tryFrom n = .ok (.VAttr n) := by
  unfold PK11PAttr.tryFrom
  rw [find?_allPathAttrs_eq_none (not_mem_of_contains_eq_false h2),
    VendorAttribute_tryFrom_ok h1 h2 h3 h4]
  rfl

theorem PK11QAttr_tryFrom_vendor {n : List Char} (h1 : ¬ n = [])
    (h2 : pathAttrTexts.contains n = false) (h3 : queryAttrTexts.contains n = false)
    (h4 : n.all vendorNameChar = true) :
    PK11QAttr.tryFrom n = .ok (.VAttr n) := by
  unfold PK11QAttr.tryFrom
  rw [find?_allQueryAttrs_eq_none (not_mem_of_contains_eq_false h3),
    VendorAttribute_tryFrom_ok h1 h2 h3 h4]
  rfl

/-! ### Lemmas about association lookups and the vendor table -/

theorem assocFind_eq_none_of_not_mem {n : List Char}
    {l : List (List Char × List Char)} (h : n ∉ l.map Prod.fst) :
    assocFind n l = none := by
  induction l with
  | nil => rfl
  | cons p rest ih =>
    simp only [List.map_cons, List.mem_cons, not_or] at h
    have hp : ¬ p.1 = n := fun hh => h.1 hh.symm
    simp [assocFind, hp, ih h.2]

theorem assocFind_append_right {n : List Char} {l1 l2 : List (List Char × List Char)}
    (h : assocFind n l1 = none) : assocFind n (l1 ++ l2) = assocFind n l2 := by
  induction l1 with
  | nil => rfl
  | cons p rest ih =>
    by_cases hp : p.1 = n
    · simp [assocFind, hp] at h
    · simp only [assocFind, hp, if_false, List.cons_append, if_neg hp] at h ⊢
      exact ih h

theorem assocFind_append_left {n : List Char} {l1 l2 : List (List Char × List Char)}
    {v : List Char} (h : assocFind n l1 = some v) :
    assocFind n (l1 ++ l2) = some v := by
  induction l1 with
  | nil => simp [assocFind] at h
  | cons p rest ih =>
    by_cases hp : p.1 = n
    · simp only [assocFind, if_pos hp, List.cons_append] at h ⊢
      exact h
    · simp only [assocFind, if_neg hp, List.cons_append] at h ⊢
      exact ih h

theorem assocFind_append_pair_ne {x n : List Char} {l : List (List Char × List Char)}
    (v : List Char) (h : ¬ n = x) :
    assocFind x (l ++ [(n, v)]) = assocFind x l := by
  cases hl : assocFind x l with
  | some w => exact assocFind_append_left hl
  | none =>
    rw [assocFind_append_right hl]
    simp [assocFind, h]

theorem assocFind_append_pair_self {n : List Char} {l : List (List Char × List Char)}
    (v : List Char) (h : assocFind n l = none) :
    assocFind n (l ++ [(n, v)]) = some v := by
  rw [assocFind_append_right h]
  simp [assocFind]

theorem assocFind_of_mem_distinct {l : List (List Char × List Char)} {n v : List Char}
    (hd : distinctNames (l.map Prod.fst) = true) (hm : (n, v) ∈ l) :
    assocFind n l = some v := by
  induction l with
  | nil => simp at hm
  | cons p rest ih =>
    have hd2 : ((rest.map Prod.fst).contains p.1) = false
        ∧ distinctNames (rest.map Prod.fst) = true := by
      simpa [distinctNames] using hd
    rcases List.mem_cons.mp hm with h | h
    · rw [← h]
      simp [assocFind]
    · by_cases hp : p.1 = n
      · exfalso
        have : n ∈ rest.map Prod.fst := List.mem_map.mpr ⟨(n, v), h, rfl⟩
        rw [← hp] at this
        simp [List.contains_eq_any_beq] at hd2
        exact absurd this (by simpa using hd2.1)
      · simp only [assocFind, if_neg hp]
        exact ih hd2.2 h

theorem vendorGet_insert_self {m : PK11URIMapping} {n : List Char} {v : List Char}
    (h : m.vendorGet n = none) :
    PK11URIMapping.vendorGet { m with vendor := vendorInsert m.vendor n v } n
      = some [v] := by
  unfold PK11URIMapping.vendorGet vendorInsert
  unfold PK11URIMapping.vendorGet at h
  have hf : m.vendor.find? (fun e => e.1 == n) = none := by
    cases hx : m.vendor.find? (fun e => e.1 == n) with
    | none => rfl
    | some e => rw [hx] at h; simp at h
  rw [List.find?_append, hf]
  simp [List.find?]

theorem vendorGet_insert_ne {m : PK11URIMapping} {n : List Char} {v x : List Char}
    (hx : ¬ n = x) :
    PK11URIMapping.vendorGet { m with vendor := vendorInsert m.vendor n v } x
      = m.vendorGet x := by
  unfold PK11URIMapping.vendorGet vendorInsert
  rw [List.find?_append]
  have hnx : (n == x) = false := by simpa using hx
  have hone : ([((n : List Char), [v])].find? (fun e => e.1 == x)) = none := by
    simp [List.find?, hnx]
  rw [hone]
  cases m.vendor.find? (fun e => e.1 == x) <;> simp

theorem vendorPush_find_self (tbl : List (List Char × List (List Char)))
    (n : List Char) (v : List Char) :
    ((vendorPush tbl n v).find? (fun e => e.1 == n)).map (fun e => e.2)
      = some ((((tbl.find? (fun e => e.1 == n)).map (fun e => e.2)).getD []) ++ [v]) := by
  induction tbl with
  | nil => simp [vendorPush, List.find?]
  | cons e rest ih =>
    by_cases he : e.1 = n
    · simp [vendorPush, he, List.find?]
    · simp only [vendorPush, if_neg he]
      have hpred : (e.1 == n) = false := by simpa using he
      simp [List.find?, hpred, ih]

theorem vendorPush_find_ne (tbl : List (List Char × List (List Char)))
    (n v x : List Char) (hx : ¬ n = x) :
    (vendorPush tbl n v).find? (fun e => e.1 == x)
      = tbl.find? (fun e => e.1 == x) := by
  have hnx : (n == x) = false := by simpa using hx
  induction tbl with
  | nil => simp [vendorPush, List.find?, hnx]
  | cons e rest ih =>
    by_cases he : e.1 = n
    · have hpred : (e.1 == x) = false := by simp [he]; exact hx
      simp [vendorPush, he, List.find?, hpred, hnx]
    · simp only [vendorPush, if_neg he]
      cases hpred : (e.1 == x) with
      | true => simp [List.find?, hpred]
      | false => simp [List.find?, hpred, ih]

theorem vendorGet_push_self (m : PK11URIMapping) (n v : List Char) :
    PK11URIMapping.vendorGet { m with vendor := vendorPush m.vendor n v } n
      = some (((m.vendorGet n).getD []) ++ [v]) := by
  unfold PK11URIMapping.vendorGet
  exact vendorPush_find_self m.vendor n v

theorem vendorGet_push_ne (m : PK11URIMapping) (n v x : List Char) (hx : ¬ n = x) :
    PK11URIMapping.vendorGet { m with vendor := vendorPush m.vendor n v } x
      = m.vendorGet x := by
  unfold PK11URIMapping.vendorGet
  rw [vendorPush_find_ne m.vendor n v x hx]

/-! ### Character and validation lemmas -/

theorem not_rustWhitespace_of_vendorNameChar {c : Char} (h : vendorNameChar c = true) :
    rustIsWhitespace c = false := by
  cases hx : rustIsWhitespace c with
  | false => rfl
  | true =>
    have hmem : c ∈ rustWhitespaceChars := by
      simpa [rustIsWhitespace] using hx
    have hall : ∀ x ∈ rustWhitespaceChars, vendorNameChar x = false := by decide
    rw [hall c hmem] at h
    exact absurd h (by decide)

theorem vendorNameChar_not_special {c : Char} (h : vendorNameChar c = true) :
    rustIsWhitespace c = false ∧ ¬ c = '=' ∧ ¬ c = ';' ∧ ¬ c = '?' ∧ ¬ c = '&' := by
  refine ⟨not_rustWhitespace_of_vendorNameChar h, ?_⟩
  simp only [vendorNameChar, Bool.or_eq_true, beq_iff_eq] at h
  rcases h with (h | rfl) | rfl
  · refine ⟨?_, ?_, ?_, ?_⟩ <;>
      (intro heq; subst heq; exact absurd h (by decide))
  · exact ⟨by decide, by decide, by decide, by decide⟩
  · exact ⟨by decide, by decide, by decide, by decide⟩

theorem contains_eq_false_of_forall {v : List Char} {a : Char}
    (h : ∀ c ∈ v, ¬ c = a) : v.contains a = false := by
  by_contra hc
  have h1 : v.contains a = true := by simpa using hc
  have h2 : a ∈ v := by simpa using h1
  exact h a h2 rfl

theorem specNameOK_props {n : List Char} (h : specNameOK n = true) :
    ¬ n = [] ∧ n.all vendorNameChar = true
      ∧ (∀ c ∈ n, rustIsWhitespace c = false)
      ∧ '=' ∉ n ∧ ';' ∉ n ∧ '?' ∉ n ∧ '&' ∉ n := by
  simp only [specNameOK, Bool.and_eq_true, Bool.not_eq_true'] at h
  obtain ⟨hne0, hall⟩ := h
  have hne : ¬ n = [] := by
    cases n with
    | nil => simp at hne0
    | cons a tl => simp
  have hall2 : n.all vendorNameChar = true := by
    rw [List.all_eq_true] at hall ⊢
    intro c hc
    simpa [vendorNameChar] using hall c hc
  have hprops : ∀ c ∈ n, rustIsWhitespace c = false ∧ ¬ c = '=' ∧ ¬ c = ';'
      ∧ ¬ c = '?' ∧ ¬ c = '&' := by
    intro c hc
    exact vendorNameChar_not_special (List.all_eq_true.mp hall2 c hc)
  refine ⟨hne, hall2, fun c hc => (hprops c hc).1, ?_, ?_, ?_, ?_⟩
  · intro hm; exact (hprops _ hm).2.1 rfl
  · intro hm; exact (hprops _ hm).2.2.1 rfl
  · intro hm; exact (hprops _ hm).2.2.2.1 rfl
  · intro hm; exact (hprops _ hm).2.2.2.2 rfl

theorem specPathValueChars_props {v : List Char} (h : specPathValueChars v = true) :
    (∀ c ∈ v, rustIsWhitespace c = false)
      ∧ v.contains ' ' = false ∧ v.contains '#' = false
      ∧ ';' ∉ v ∧ '?' ∉ v := by
  simp only [specPathValueChars, List.all_eq_true, Bool.and_eq_true, Bool.not_eq_true',
    beq_eq_false_iff_ne, ne_eq] at h
  refine ⟨fun c hc => ((h c hc).1.1.1), ?_, ?_, ?_, ?_⟩
  · apply contains_eq_false_of_forall
    intro c hc hcc
    subst hcc
    exact absurd (h _ hc).1.1.1 (by decide)
  · exact contains_eq_false_of_forall fun c hc => (h c hc).1.1.2
  · intro hm; exact (h _ hm).1.2 rfl
  · intro hm; exact (h _ hm).2 rfl

theorem specQueryValueChars_props {v : List Char} (h : specQueryValueChars v = true) :
    (∀ c ∈ v, rustIsWhitespace c = false)
      ∧ v.contains ' ' = false ∧ v.contains '#' = false ∧ '&' ∉ v := by
  simp only [specQueryValueChars, List.all_eq_true, Bool.and_eq_true, Bool.not_eq_true',
    beq_eq_false_iff_ne, ne_eq] at h
  refine ⟨fun c hc => ((h c hc).1.1), ?_, ?_, ?_⟩
  · apply contains_eq_false_of_forall
    intro c hc hcc
    subst hcc
    exact absurd (h _ hc).1.1 (by decide)
  · exact contains_eq_false_of_forall fun c hc => (h c hc).1.2
  · intro hm; exact (h _ hm).2 rfl

theorem common_validation_eq_none_iff {v : List Char} :
    common_validation v = none ↔ (v.contains ' ' = false ∧ v.contains '#' = false) := by
  unfold common_validation
  constructor
  · intro h
    by_cases h1 : v.contains ' ' = true
    · rw [if_pos h1] at h; simp at h
    · rw [if_neg h1] at h
      by_cases h2 : v.contains '#' = true
      · rw [if_pos h2] at h; simp at h
      · exact ⟨by simpa using h1, by simpa using h2⟩
  · intro ⟨h1, h2⟩
    have h1b : ¬ (v.contains ' ' = true) := by rw [h1]; simp
    have h2b : ¬ (v.contains '#' = true) := by rw [h2]; simp
    rw [if_neg h1b, if_neg h2b]

theorem splitOnce_isSome_of_mem {sep : Char} {s : List Char} (h : sep ∈ s) :
    (splitOnce sep s).isSome = true := by
  induction s with
  | nil => simp at h
  | cons c tl ih =>
    by_cases hc : c = sep
    · simp [splitOnce, hc]
    · have hm : sep ∈ tl := by
        rcases List.mem_cons.mp h with h1 | h1
        · exact absurd h1.symm hc
        · exact h1
      simp only [splitOnce, if_neg hc]
      cases hx : splitOnce sep tl with
      | none => rw [hx] at ih; exact absurd (ih hm) (by simp)
      | some p => simp

theorem specDigits_eq_isDigits : specDigits = isDigits := rfl

theorem isDigit_ne_dot {c : Char} (h : c.isDigit = true) : ¬ c = '.' := by
  intro rfl2
  exact absurd h (by rw [rfl2]; decide)

theorem libraryVersionMatch_eq_spec (v : List Char) :
    libraryVersionMatch v = specLibraryVersion v := by
  unfold libraryVersionMatch specLibraryVersion
  cases hs : splitOnce '.' v with
  | none =>
    have hnm : '.' ∉ v := by
      intro hmem
      have := splitOnce_isSome_of_mem hmem
      rw [hs] at this
      simp at this
    rw [splitOnChar_of_not_mem hnm]
    rw [specDigits_eq_isDigits]
  | some p =>
    obtain ⟨hv, hna⟩ := splitOnce_eq_some (show splitOnce '.' v = some (p.1, p.2) by rw [hs])
    rw [hv, splitOnChar_append hna, specDigits_eq_isDigits]
    by_cases hb : '.' ∈ p.2
    · have hcount : 0 < p.2.count '.' := List.count_pos_iff.mpr hb
      have hlen : 2 ≤ (splitOnChar '.' p.2).length := by
        rw [splitOnChar_length_eq]
        omega
      cases hx : splitOnChar '.' p.2 with
      | nil => exact absurd hx (splitOnChar_ne_nil '.' p.2)
      | cons x xs =>
        cases xs with
        | nil => rw [hx] at hlen; simp at hlen
        | cons y ys =>
          have hd2 : isDigits p.2 = false := by
            by_contra hd
            have hd3 : isDigits p.2 = true := by simpa using hd
            simp only [isDigits, Bool.and_eq_true, List.all_eq_true] at hd3
            exact isDigit_ne_dot (hd3.2 '.' hb) rfl
          simp [hd2]
    · rw [splitOnChar_of_not_mem hb]

/-! ### Processing a grammar-accepted fragment -/

theorem specQueryVocab_eq : specQueryVocab = queryAttrTexts := rfl

theorem specPathVocab_eq : specPathVocab = pathAttrTexts := rfl

theorem not_mem_chars_of_contains_eq_false {v : List Char} {a : Char}
    (h : v.contains a = false) : a ∉ v := by
  intro hm
  simp [hm] at h

theorem extractNameValue_specFragment {n v : List Char}
    (hn : '=' ∉ n) (hnw : ∀ c ∈ n, rustIsWhitespace c = false)
    (hvw : ∀ c ∈ v, rustIsWhitespace c = false) :
    extractNameValue (specFragment (n, v)) = some (n, v) := by
  unfold extractNameValue specFragment
  rw [splitOnce_append_first hn]
  simp [trimChars_eq_self hnw, trimChars_eq_self hvw]

theorem specPathAttrOK_parts {n v : List Char} (hok : specPathAttrOK (n, v) = true) :
    specNameOK n = true ∧ specQueryVocab.contains n = false
      ∧ specPathValueChars v = true
      ∧ (if n = "type".toList then specTypeValues.contains v
         else if n = "library-version".toList then specLibraryVersion v
         else if n = "slot-id".toList then specDigits v
         else !(v.contains '/')) = true := by
  simp only [specPathAttrOK, Bool.and_eq_true, Bool.not_eq_true'] at hok
  exact ⟨hok.1.1.1, hok.1.1.2, hok.1.2, hok.2⟩

theorem PK11PAttr_validate_of_spec_std {s : PathAttrName} {v : List Char}
    (hok : specPathAttrOK (pattrText s, v) = true) :
    PK11PAttr.validate (.std s) v = .ok () := by
  obtain ⟨_, _, hchars, hcond⟩ := specPathAttrOK_parts hok
  obtain ⟨_, hsp, hhash, _, _⟩ := specPathValueChars_props hchars
  have hcv : common_validation v = none := common_validation_eq_none_iff.mpr ⟨hsp, hhash⟩
  cases s
  case type =>
    rw [if_pos (by decide)] at hcond
    have hmem : v ∈ typeValues := by simpa [specTypeValues, typeValues] using hcond
    simp [PK11PAttr.validate, hmem]
  case library_version =>
    rw [if_neg (by decide), if_pos (by decide)] at hcond
    have hm : libraryVersionMatch v = true := by
      rw [libraryVersionMatch_eq_spec]; exact hcond
    simp [PK11PAttr.validate, hm]
  case slot_id =>
    rw [if_neg (by decide), if_neg (by decide), if_pos (by decide)] at hcond
    have hm : slotIdMatch v = true := hcond
    simp [PK11PAttr.validate, hm]
  all_goals (
    rw [if_neg (by decide), if_neg (by decide), if_neg (by decide)] at hcond
    have hslash : v.contains '/' = false := by
      cases hx : v.contains '/' with
      | false => rfl
      | true => rw [hx] at hcond; exact absurd hcond (by decide)
    have hsl2 : '/' ∉ v := not_mem_chars_of_contains_eq_false hslash
    simp [PK11PAttr.validate, hcv, hsl2])

theorem PK11PAttr_validate_of_spec_vendor {n v : List Char}
    (hok : specPathAttrOK (n, v) = true)
    (hnstd : pathAttrTexts.contains n = false) :
    PK11PAttr.validate (.VAttr n) v = .ok () := by
  obtain ⟨_, _, hchars, hcond⟩ := specPathAttrOK_parts hok
  obtain ⟨_, hsp, hhash, _, _⟩ := specPathValueChars_props hchars
  have hcv : common_validation v = none := common_validation_eq_none_iff.mpr ⟨hsp, hhash⟩
  have hne1 : ¬ (n = "type".toList) := by
    intro hh; rw [hh] at hnstd; exact absurd hnstd (by decide)
  have hne2 : ¬ (n = "library-version".toList) := by
    intro hh; rw [hh] at hnstd; exact absurd hnstd (by decide)
  have hne3 : ¬ (n = "slot-id".toList) := by
    intro hh; rw [hh] at hnstd; exact absurd hnstd (by decide)
  rw [if_neg hne1, if_neg hne2, if_neg hne3] at hcond
  have hslash : v.contains '/' = false := by
    cases hx : v.contains '/' with
    | false => rfl
    | true => rw [hx] at hcond; exact absurd hcond (by decide)
  have hsl2 : '/' ∉ v := not_mem_chars_of_contains_eq_false hslash
  simp [PK11PAttr.validate, hcv, hsl2]

theorem pk11_pattr_assign_spec {n v : List Char} {m : PK11URIMapping}
    (hok : specPathAttrOK (n, v) = true)
    (hfresh_std : ∀ s : PathAttrName, pattrText s = n → slotGet s m = none)
    (hfresh_vendor : m.vendorGet n = none) :
    ∃ m2, pk11_pattr.assign (specFragment (n, v)) m = .ok m2
      ∧ ((∃ s : PathAttrName, pattrText s = n ∧ m2 = slotSet s v m)
         ∨ (n ∉ pathAttrTexts
            ∧ m2 = { m with vendor := vendorInsert m.vendor n v })) := by
  obtain ⟨hname, hqv, hchars, _⟩ := specPathAttrOK_parts hok
  obtain ⟨hne, hall, hnw, hneq, _, _, _⟩ := specNameOK_props hname
  obtain ⟨hvw, _, _, _, _⟩ := specPathValueChars_props hchars
  have hextract := extractNameValue_specFragment hneq hnw hvw
  by_cases hstd : pathAttrTexts.contains n = true
  · obtain ⟨s, hs⟩ := mem_pathAttrTexts_iff.mp (by simpa using hstd)
    have hclass : PK11PAttr.tryFrom n = .ok (.std s) := by
      rw [← hs]; exact PK11PAttr_tryFrom_std s
    have hval : PK11PAttr.validate (.std s) v = .ok () := by
      apply PK11PAttr_validate_of_spec_std
      rw [hs]; exact hok
    refine ⟨slotSet s v m, ?_, Or.inl ⟨s, hs, rfl⟩⟩
    unfold pk11_pattr.assign
    rw [hextract]
    simp only [hclass, hval, PK11PAttr.assign, hfresh_std s hs]
  · have hstd2 : pathAttrTexts.contains n = false := by simpa using hstd
    have hclass : PK11PAttr.tryFrom n = .ok (.VAttr n) :=
      PK11PAttr_tryFrom_vendor hne hstd2 (by rw [← specQueryVocab_eq]; exact hqv) hall
    have hval : PK11PAttr.validate (.VAttr n) v = .ok () :=
      PK11PAttr_validate_of_spec_vendor hok hstd2
    refine ⟨_, ?_, Or.inr ⟨not_mem_of_contains_eq_false hstd2, rfl⟩⟩
    unfold pk11_pattr.assign
    rw [hextract]
    simp only [hclass, hval, PK11PAttr.assign, hfresh_vendor]

theorem specQueryAttrOK_parts {n v : List Char} (hok : specQueryAttrOK (n, v) = true) :
    specNameOK n = true ∧ specPathVocab.contains n = false
      ∧ specQueryValueChars v = true := by
  simp only [specQueryAttrOK, Bool.and_eq_true, Bool.not_eq_true'] at hok
  exact ⟨hok.1.1, hok.1.2, hok.2⟩

theorem PK11QAttr_validate_ok {a : PK11QAttr} {v : List Char}
    (hsp : v.contains ' ' = false) (hhash : v.contains '#' = false) :
    PK11QAttr.validate a v = .ok () := by
  have hcv : common_validation v = none := common_validation_eq_none_iff.mpr ⟨hsp, hhash⟩
  simp [PK11QAttr.validate, hcv]

theorem pk11_qattr_assign_spec {n v : List Char} {m : PK11URIMapping}
    (hok : specQueryAttrOK (n, v) = true)
    (hfresh_std : ∀ q : QueryAttrName, qattrText q = n → qslotGet q m = none) :
    ∃ m2, pk11_qattr.assign (specFragment (n, v)) m = .ok m2
      ∧ ((∃ q : QueryAttrName, qattrText q = n ∧ m2 = qslotSet q v m)
         ∨ (n ∉ queryAttrTexts
            ∧ m2 = { m with vendor := vendorPush m.vendor n v })) := by
  obtain ⟨hname, hpv, hchars⟩ := specQueryAttrOK_parts hok
  obtain ⟨hne, hall, hnw, hneq, _, _, _⟩ := specNameOK_props hname
  obtain ⟨hvw, hsp, hhash, _⟩ := specQueryValueChars_props hchars
  have hextract := extractNameValue_specFragment hneq hnw hvw
  by_cases hstd : queryAttrTexts.contains n = true
  · obtain ⟨q, hq⟩ := mem_queryAttrTexts_iff.mp (by simpa using hstd)
    have hclass : PK11QAttr.tryFrom n = .ok (.std q) := by
      rw [← hq]; exact PK11QAttr_tryFrom_std q
    refine ⟨qslotSet q v m, ?_, Or.inl ⟨q, hq, rfl⟩⟩
    unfold pk11_qattr.assign
    rw [hextract]
    simp only [hclass, PK11QAttr_validate_ok hsp hhash, PK11QAttr.assign,
      hfresh_std q hq]
  · have hstd2 : queryAttrTexts.contains n = false := by simpa using hstd
    have hclass : PK11QAttr.tryFrom n = .ok (.VAttr n) :=
      PK11QAttr_tryFrom_vendor hne (by rw [← specPathVocab_eq]; exact hpv) hstd2 hall
    refine ⟨_, ?_, Or.inr ⟨not_mem_of_contains_eq_false hstd2, rfl⟩⟩
    unfold pk11_qattr.assign
    rw [hextract]
    simp only [hclass, PK11QAttr_validate_ok hsp hhash, PK11QAttr.assign]

theorem PathInv_nil : PathInv [] {} := by
  refine ⟨fun s => ?_, fun n h => ?_, fun q => ?_⟩
  · cases s <;> rfl
  · exact absurd (show PK11URIMapping.vendorGet {} n = none from rfl) h
  · cases q <;> rfl

theorem processPath_spec (uri path : List Char) (attrs : List (List Char × List Char)) :
    ∀ (done : List (List Char × List Char)) (m : PK11URIMapping) (k : Nat),
    attrs.all specPathAttrOK = true →
    distinctNames (attrs.map Prod.fst) = true →
    (∀ p ∈ attrs, p.1 ∉ done.map Prod.fst) →
    PathInv done m →
    ∃ m2, processPath uri path k (attrs.map specFragment) m = .ok m2
      ∧ PathInv (done ++ attrs) m2 := by
  induction attrs with
  | nil =>
    intro done m k _ _ _ hinv
    exact ⟨m, rfl, by simpa using hinv⟩
  | cons p rest ih =>
    intro done m k hall hdist hfresh hinv
    obtain ⟨inv1, inv2, inv3⟩ := hinv
    have hokp : specPathAttrOK p = true ∧ rest.all specPathAttrOK = true := by
      simpa using hall
    have hok1 : specPathAttrOK (p.1, p.2) = true := by simpa using hokp.1
    have hdist2 : ((rest.map Prod.fst).contains p.1) = false
        ∧ distinctNames (rest.map Prod.fst) = true := by
      simpa [distinctNames] using hdist
    have hp_done : p.1 ∉ done.map Prod.fst := hfresh p (by simp)
    have hfresh_std : ∀ s : PathAttrName, pattrText s = p.1 → slotGet s m = none := by
      intro s hs
      rw [inv1 s, hs]
      exact assocFind_eq_none_of_not_mem hp_done
    have hfresh_vendor : m.vendorGet p.1 = none := by
      cases hx : m.vendorGet p.1 with
      | none => rfl
      | some l => exact absurd (inv2 p.1 (by rw [hx]; simp)) hp_done
    obtain ⟨m2, hstep, hshape⟩ := pk11_pattr_assign_spec hok1 hfresh_std hfresh_vendor
    have hpe : done ++ [p] = done ++ [(p.1, p.2)] := by simp
    have hinvNew : PathInv (done ++ [p]) m2 := by
      rcases hshape with ⟨s, hs, rfl⟩ | ⟨hnv, rfl⟩
      · refine ⟨fun t => ?_, fun x hx => ?_, fun q => ?_⟩
        · by_cases hts : t = s
          · subst hts
            rw [slotGet_slotSet_self, hs, hpe]
            exact (assocFind_append_pair_self p.2
              (assocFind_eq_none_of_not_mem hp_done)).symm
          · rw [slotGet_slotSet_ne hts, inv1 t, hpe]
            have hne : ¬ p.1 = pattrText t := by
              intro hh
              exact hts (pattrText_inj (hs.trans hh)).symm
            exact (assocFind_append_pair_ne p.2 hne).symm
        · rw [vendorGet_slotSet] at hx
          have := inv2 x hx
          simp [this]
        · rw [qslotGet_slotSet]
          exact inv3 q
      · refine ⟨fun t => ?_, fun x hx => ?_, fun q => ?_⟩
        · rw [slotGet_setVendor, inv1 t, hpe]
          have hne : ¬ p.1 = pattrText t := by
            intro hh
            exact hnv (by rw [hh]; exact pattrText_mem t)
          exact (assocFind_append_pair_ne p.2 hne).symm
        · by_cases hxp : x = p.1
          · subst hxp
            simp
          · rw [vendorGet_insert_ne (fun hh => hxp hh.symm)] at hx
            have := inv2 x hx
            simp [this]
        · rw [qslotGet_setVendor]
          exact inv3 q
    have hfresh2 : ∀ p2 ∈ rest, p2.1 ∉ (done ++ [p]).map Prod.fst := by
      intro p2 hp2
      simp only [List.map_append, List.mem_append]
      rintro (hin | hin)
      · exact hfresh p2 (by simp [hp2]) hin
      · have hin2 : p2.1 = p.1 := by simpa using hin
        have : p.1 ∈ rest.map Prod.fst := by
          rw [← hin2]
          exact List.mem_map.mpr ⟨p2, hp2, rfl⟩
        exact absurd this (not_mem_of_contains_eq_false hdist2.1)
    obtain ⟨m3, hrest, hinv3⟩ := ih (done ++ [p]) m2 (k + 1) hokp.2 hdist2.2 hfresh2 hinvNew
    refine ⟨m3, ?_, by simpa using hinv3⟩
    have hstep2 : pk11_pattr.assign (specFragment p) m = .ok m2 := by
      simpa using hstep
    simp only [List.map_cons, processPath, hstep2, hrest]

theorem processQuery_spec (uri query : List Char) (attrs : List (List Char × List Char)) :
    ∀ (qdone : List (List Char × List Char)) (m0 m : PK11URIMapping) (k : Nat),
    attrs.all specQueryAttrOK = true →
    distinctNames ((attrs.map Prod.fst).filter (fun x => specQueryVocab.contains x)) = true →
    (∀ p ∈ attrs, queryAttrTexts.contains p.1 = true → p.1 ∉ qdone.map Prod.fst) →
    QueryInv qdone m0 m →
    ∃ m2, processQuery uri query k (attrs.map specFragment) m = .ok m2
      ∧ QueryInv (qdone ++ attrs) m0 m2 := by
  induction attrs with
  | nil =>
    intro qdone m0 m k _ _ _ hinv
    exact ⟨m, rfl, by simpa using hinv⟩
  | cons p rest ih =>
    intro qdone m0 m k hall hdist hfresh hinv
    obtain ⟨inv1, inv2⟩ := hinv
    have hokp : specQueryAttrOK p = true ∧ rest.all specQueryAttrOK = true := by
      simpa using hall
    have hok1 : specQueryAttrOK (p.1, p.2) = true := by simpa using hokp.1
    have hfresh_std : ∀ q : QueryAttrName, qattrText q = p.1 → qslotGet q m = none := by
      intro q hq
      rw [inv2 q, hq]
      apply assocFind_eq_none_of_not_mem
      apply hfresh p (by simp)
      rw [← hq]
      simpa using qattrText_mem q
    obtain ⟨m2, hstep, hshape⟩ := pk11_qattr_assign_spec hok1 hfresh_std
    have hpe : qdone ++ [p] = qdone ++ [(p.1, p.2)] := by simp
    have hinvNew : QueryInv (qdone ++ [p]) m0 m2 := by
      rcases hshape with ⟨q, hq, rfl⟩ | ⟨hnv, rfl⟩
      · refine ⟨fun s => ?_, fun t => ?_⟩
        · rw [slotGet_qslotSet]
          exact inv1 s
        · by_cases htq : t = q
          · subst htq
            rw [qslotGet_qslotSet_self, hq, hpe]
            refine (assocFind_append_pair_self p.2 ?_).symm
            apply assocFind_eq_none_of_not_mem
            apply hfresh p (by simp)
            rw [← hq]
            simpa using qattrText_mem t
          · rw [qslotGet_qslotSet_ne htq, inv2 t, hpe]
            have hne : ¬ p.1 = qattrText t := by
              intro hh
              exact htq (qattrText_inj (hq.trans hh)).symm
            exact (assocFind_append_pair_ne p.2 hne).symm
      · refine ⟨fun s => ?_, fun t => ?_⟩
        · rw [slotGet_setVendor]
          exact inv1 s
        · rw [qslotGet_setVendor, inv2 t, hpe]
          have hne : ¬ p.1 = qattrText t := by
            intro hh
            exact hnv (by rw [hh]; exact qattrText_mem t)
          exact (assocFind_append_pair_ne p.2 hne).symm
    have hstdsplit : ((p :: rest).map Prod.fst).filter (fun x => specQueryVocab.contains x)
        = if specQueryVocab.contains p.1 = true
          then p.1 :: (rest.map Prod.fst).filter (fun x => specQueryVocab.contains x)
          else (rest.map Prod.fst).filter (fun x => specQueryVocab.contains x) := by
      by_cases hc : specQueryVocab.contains p.1 = true
      · rw [if_pos hc]
        simp only [List.map_cons, List.filter_cons]
        rw [if_pos (by simpa using hc)]
      · rw [if_neg hc]
        have hc2 : specQueryVocab.contains p.1 = false := by simpa using hc
        simp only [List.map_cons, List.filter_cons]
        rw [if_neg (by simpa using not_mem_of_contains_eq_false hc2)]
    have hdist_rest : distinctNames ((rest.map Prod.fst).filter
        (fun x => specQueryVocab.contains x)) = true := by
      rw [hstdsplit] at hdist
      by_cases hc : specQueryVocab.contains p.1 = true
      · rw [if_pos hc] at hdist
        have hx : (((rest.map Prod.fst).filter
              (fun x => specQueryVocab.contains x)).contains p.1) = false
            ∧ distinctNames ((rest.map Prod.fst).filter
              (fun x => specQueryVocab.contains x)) = true := by
          simpa [distinctNames] using hdist
        exact hx.2
      · rwa [if_neg hc] at hdist
    have hfresh2 : ∀ p2 ∈ rest, queryAttrTexts.contains p2.1 = true →
        p2.1 ∉ (qdone ++ [p]).map Prod.fst := by
      intro p2 hp2 hstd2
      simp only [List.map_append, List.mem_append]
      rintro (hin | hin)
      · exact hfresh p2 (by simp [hp2]) hstd2 hin
      · have hin2 : p2.1 = p.1 := by simpa using hin
        have hcp : specQueryVocab.contains p.1 = true := by
          rw [specQueryVocab_eq, ← hin2]
          exact hstd2
        rw [hstdsplit, if_pos hcp] at hdist
        have hnotin : ((rest.map Prod.fst).filter
            (fun x => specQueryVocab.contains x)).contains p.1 = false
            ∧ distinctNames ((rest.map Prod.fst).filter
                (fun x => specQueryVocab.contains x)) = true := by
          simpa [distinctNames] using hdist
        have hmem : p.1 ∈ (rest.map Prod.fst).filter (fun x => specQueryVocab.contains x) := by
          apply List.mem_filter.mpr
          refine ⟨?_, hcp⟩
          rw [← hin2]
          exact List.mem_map.mpr ⟨p2, hp2, rfl⟩
        exact absurd hmem (not_mem_of_contains_eq_false hnotin.1)
    obtain ⟨m3, hrest, hinv3⟩ := ih (qdone ++ [p]) m0 m2 (k + 1) hokp.2 hdist_rest hfresh2 hinvNew
    refine ⟨m3, ?_, by simpa using hinv3⟩
    have hstep2 : pk11_qattr.assign (specFragment p) m = .ok m2 := by
      simpa using hstep
    simp only [List.map_cons, processQuery, hstep2, hrest]

/-! ### Locating the regions of an assembled URI -/

theorem isPrefixOf_append (l r : List Char) : l.isPrefixOf (l ++ r) = true := by
  induction l with
  | nil => simp [List.isPrefixOf]
  | cons c tl ih => simp [List.isPrefixOf, ih]

theorem not_mem_specFragment {p : List Char × List Char} {c : Char}
    (hc : ¬ c = '=') (hn : c ∉ p.1) (hv : c ∉ p.2) : c ∉ specFragment p := by
  intro hm
  have hm2 : c ∈ p.1 ∨ c = '=' ∨ c ∈ p.2 := by simpa [specFragment] using hm
  rcases hm2 with h1 | h1 | h1
  · exact hn h1
  · exact hc h1
  · exact hv h1

theorem pathFragment_no_semi {p : List Char × List Char}
    (hok : specPathAttrOK (p.1, p.2) = true) : ';' ∉ specFragment p := by
  obtain ⟨hname, _, hchars, _⟩ := specPathAttrOK_parts hok
  obtain ⟨_, _, _, _, hs, _, _⟩ := specNameOK_props hname
  obtain ⟨_, _, _, hsv, _⟩ := specPathValueChars_props hchars
  exact not_mem_specFragment (by decide) hs hsv

theorem pathFragment_no_qmark {p : List Char × List Char}
    (hok : specPathAttrOK (p.1, p.2) = true) : '?' ∉ specFragment p := by
  obtain ⟨hname, _, hchars, _⟩ := specPathAttrOK_parts hok
  obtain ⟨_, _, _, _, _, hq, _⟩ := specNameOK_props hname
  obtain ⟨_, _, _, _, hqv⟩ := specPathValueChars_props hchars
  exact not_mem_specFragment (by decide) hq hqv

theorem queryFragment_no_amp {p : List Char × List Char}
    (hok : specQueryAttrOK (p.1, p.2) = true) : '&' ∉ specFragment p := by
  obtain ⟨hname, _, hchars⟩ := specQueryAttrOK_parts hok
  obtain ⟨_, _, _, _, _, _, ha⟩ := specNameOK_props hname
  obtain ⟨_, _, _, hav⟩ := specQueryValueChars_props hchars
  exact not_mem_specFragment (by decide) ha hav

theorem pathPart_no_qmark {attrs : List (List Char × List Char)}
    (hall : attrs.all specPathAttrOK = true) :
    '?' ∉ joinSep ';' (attrs.map specFragment) := by
  intro hmem
  rcases mem_of_mem_joinSep hmem with h | ⟨f, hf, hc⟩
  · exact absurd h (by decide)
  · obtain ⟨p, hp, rfl⟩ := List.mem_map.mp hf
    have hok : specPathAttrOK (p.1, p.2) = true := by
      simpa using List.all_eq_true.mp hall p hp
    exact pathFragment_no_qmark hok hc

theorem splitOnChar_joinSep {sep : Char} {fs : List (List Char)}
    (hne : fs ≠ []) (hsep : ∀ f ∈ fs, sep ∉ f) :
    splitOnChar sep (joinSep sep fs) = fs := by
  induction fs with
  | nil => exact absurd rfl hne
  | cons f rest ih =>
    cases rest with
    | nil =>
      simp only [joinSep]
      exact splitOnChar_of_not_mem (hsep f (by simp))
    | cons g gs =>
      simp only [joinSep]
      rw [splitOnChar_append (hsep f (by simp))]
      rw [ih (by simp) (fun f2 hf2 => hsep f2 (by simp [hf2]))]

theorem joinSep_fragments_ne_nil (sep : Char) (p : List Char × List Char)
    (rest : List (List Char × List Char)) :
    joinSep sep ((p :: rest).map specFragment) ≠ [] := by
  cases rest with
  | nil => simp [joinSep, specFragment]
  | cons g gs => simp [joinSep, specFragment]

theorem drop_append_cons (l1 : List Char) (c : Char) (l2 : List Char) :
    (l1 ++ c :: l2).drop (l1.length + 1) = l2 := by
  induction l1 with
  | nil => simp
  | cons a tl ih => simp [ih]

theorem queryIdx_assemble_none {g : SpecURI} (hq : g.queryAttrs = none)
    (hnp : '?' ∉ joinSep ';' (g.pathAttrs.map specFragment)) :
    queryIdx (assembleURI g) = none := by
  unfold queryIdx assembleURI
  rw [hq]
  apply charIdx_eq_none_of_not_mem
  intro hm
  simp only [List.append_nil] at hm
  rcases List.mem_append.mp hm with h | h
  · exact absurd h (by decide)
  · exact hnp h

theorem queryIdx_assemble_some {g : SpecURI}
    {qs : List (List Char × List Char)} (hq : g.queryAttrs = some qs)
    (hnp : '?' ∉ joinSep ';' (g.pathAttrs.map specFragment)) :
    queryIdx (assembleURI g)
      = some ((joinSep ';' (g.pathAttrs.map specFragment)).length
          + schemeChars.length) := by
  unfold queryIdx assembleURI
  rw [hq, List.append_assoc]
  rw [charIdx_append_of_not_mem (by decide)]
  rw [charIdx_append_of_not_mem hnp]
  rw [charIdx_cons_self]
  simp [schemeChars]

theorem pathRegion_assemble (g : SpecURI)
    (hnp : '?' ∉ joinSep ';' (g.pathAttrs.map specFragment)) :
    pathRegion (assembleURI g) = joinSep ';' (g.pathAttrs.map specFragment) := by
  unfold pathRegion
  cases hq : g.queryAttrs with
  | none =>
    rw [queryIdx_assemble_none hq hnp]
    simp only [Option.getD, List.take_length]
    unfold assembleURI
    rw [hq]
    simp only [List.append_nil]
    exact List.drop_left schemeChars _
  | some qs =>
    rw [queryIdx_assemble_some hq hnp]
    simp only [Option.getD]
    have hassm : assembleURI g
        = (schemeChars ++ joinSep ';' (g.pathAttrs.map specFragment))
          ++ '?' :: joinSep '&' (qs.map specFragment) := by
      unfold assembleURI
      rw [hq]
      simp [schemeChars]
    rw [hassm]
    rw [List.take_left' (by simp [Nat.add_comm])]
    exact List.drop_left schemeChars _

theorem assembleURI_none {g : SpecURI} (hq : g.queryAttrs = none) :
    assembleURI g
      = schemeChars ++ joinSep ';' (g.pathAttrs.map specFragment) := by
  unfold assembleURI
  rw [hq]
  simp [schemeChars]

theorem assembleURI_some {g : SpecURI} {qs : List (List Char × List Char)}
    (hq : g.queryAttrs = some qs) :
    assembleURI g
      = (schemeChars ++ joinSep ';' (g.pathAttrs.map specFragment))
        ++ '?' :: joinSep '&' (qs.map specFragment) := by
  unfold assembleURI
  rw [hq]
  simp [schemeChars]

theorem queryRegion_assemble {g : SpecURI} {qs : List (List Char × List Char)}
    (hq : g.queryAttrs = some qs) :
    (assembleURI g).drop
        (((joinSep ';' (g.pathAttrs.map specFragment)).length + schemeChars.length) + 1)
      = joinSep '&' (qs.map specFragment) := by
  rw [assembleURI_some hq]
  have hlen : (schemeChars ++ joinSep ';' (g.pathAttrs.map specFragment)).length
      = (joinSep ';' (g.pathAttrs.map specFragment)).length + schemeChars.length := by
    simp [Nat.add_comm]
  rw [← hlen]
  exact drop_append_cons _ '?' _

theorem SpecURI_OK_parts {g : SpecURI} (h : SpecURI.OK g = true) :
    g.pathAttrs.all specPathAttrOK = true
    ∧ distinctNames (g.pathAttrs.map Prod.fst) = true
    ∧ (∀ qs, g.queryAttrs = some qs →
        qs ≠ [] ∧ qs.all specQueryAttrOK = true
        ∧ distinctNames ((qs.map Prod.fst).filter
            (fun n => specQueryVocab.contains n)) = true) := by
  simp only [SpecURI.OK, Bool.and_eq_true] at h
  refine ⟨h.1.1, h.1.2, ?_⟩
  intro qs hqs
  have h2 := h.2
  rw [hqs] at h2
  simp only [Bool.and_eq_true] at h2
  refine ⟨?_, h2.1.2, h2.2⟩
  cases qs with
  | nil => exact absurd h2.1.1 (by decide)
  | cons a tl => simp

theorem qattrText_contains (q : QueryAttrName) :
    specQueryVocab.contains (qattrText q) = true := by
  cases q <;> decide

theorem assocFind_of_mem_distinct_filter {l : List (List Char × List Char)}
    {n v : List Char} (hn : specQueryVocab.contains n = true)
    (hd : distinctNames ((l.map Prod.fst).filter
        (fun x => specQueryVocab.contains x)) = true)
    (hm : (n, v) ∈ l) : assocFind n l = some v := by
  induction l with
  | nil => simp at hm
  | cons p rest ih =>
    have hsplit : ((p :: rest).map Prod.fst).filter (fun x => specQueryVocab.contains x)
        = if specQueryVocab.contains p.1 = true
          then p.1 :: (rest.map Prod.fst).filter (fun x => specQueryVocab.contains x)
          else (rest.map Prod.fst).filter (fun x => specQueryVocab.contains x) := by
      by_cases hc : specQueryVocab.contains p.1 = true
      · rw [if_pos hc]
        simp only [List.map_cons, List.filter_cons]
        rw [if_pos (by simpa using hc)]
      · rw [if_neg hc]
        have hc2 : specQueryVocab.contains p.1 = false := by simpa using hc
        simp only [List.map_cons, List.filter_cons]
        rw [if_neg (by simpa using not_mem_of_contains_eq_false hc2)]
    rcases List.mem_cons.mp hm with h | h
    · rw [← h]
      simp [assocFind]
    · by_cases hp : p.1 = n
      · exfalso
        have hc : specQueryVocab.contains p.1 = true := by rw [hp]; exact hn
        rw [hsplit, if_pos hc] at hd
        have hx : (((rest.map Prod.fst).filter
              (fun x => specQueryVocab.contains x)).contains p.1) = false
            ∧ distinctNames ((rest.map Prod.fst).filter
              (fun x => specQueryVocab.contains x)) = true := by
          simpa [distinctNames] using hd
        have hmem : p.1 ∈ (rest.map Prod.fst).filter
            (fun x => specQueryVocab.contains x) := by
          apply List.mem_filter.mpr
          refine ⟨?_, by simpa using hc⟩
          rw [hp]
          exact List.mem_map.mpr ⟨(n, v), h, rfl⟩
        exact absurd hmem (not_mem_of_contains_eq_false hx.1)
      · have hd_rest : distinctNames ((rest.map Prod.fst).filter
            (fun x => specQueryVocab.contains x)) = true := by
          rw [hsplit] at hd
          by_cases hc : specQueryVocab.contains p.1 = true
          · rw [if_pos hc] at hd
            have hx : (((rest.map Prod.fst).filter
                  (fun x => specQueryVocab.contains x)).contains p.1) = false
                ∧ distinctNames ((rest.map Prod.fst).filter
                  (fun x => specQueryVocab.contains x)) = true := by
              simpa [distinctNames] using hd
            exact hx.2
          · rwa [if_neg hc] at hd
        simp only [assocFind, if_neg hp]
        exact ih hd_rest h

theorem parse_eval_noquery {uri : List Char} {m1 : PK11URIMapping}
    (hpre : schemeChars.isPrefixOf uri = true)
    (hphase : parsePathPhase uri = .ok m1)
    (hqidx : queryIdx uri = none) :
    parse uri = .ok m1 := by
  unfold parse
  rw [hpre]
  rw [if_neg (by decide)]
  simp only [hphase, hqidx]

theorem parse_eval_query {uri : List Char} {m1 m2 : PK11URIMapping} {q : Nat}
    (hpre : schemeChars.isPrefixOf uri = true)
    (hphase : parsePathPhase uri = .ok m1)
    (hqidx : queryIdx uri = some q)
    (hqne : uri.drop (q + 1) ≠ [])
    (hrun : processQuery uri (uri.drop (q + 1)) 0
        (splitOnChar '&' (uri.drop (q + 1))) m1 = .ok m2) :
    parse uri = .ok m2 := by
  unfold parse
  rw [hpre]
  rw [if_neg (by decide)]
  simp only [hphase, hqidx, if_neg hqne, hrun]

theorem parsePathPhase_spec {g : SpecURI} (hpall : g.pathAttrs.all specPathAttrOK = true)
    (hpdist : distinctNames (g.pathAttrs.map Prod.fst) = true) :
    ∃ m1, parsePathPhase (assembleURI g) = .ok m1 ∧ PathInv g.pathAttrs m1 := by
  have hnp : '?' ∉ joinSep ';' (g.pathAttrs.map specFragment) := pathPart_no_qmark hpall
  unfold parsePathPhase
  rw [pathRegion_assemble g hnp]
  cases hattrs : g.pathAttrs with
  | nil =>
    refine ⟨{}, ?_, ?_⟩
    · simp [joinSep]
    · rw [hattrs] at *
      exact PathInv_nil
  | cons p rest =>
    rw [if_neg (joinSep_fragments_ne_nil ';' p rest)]
    have hsplit : splitOnChar ';' (joinSep ';' ((p :: rest).map specFragment))
        = (p :: rest).map specFragment := by
      apply splitOnChar_joinSep (by simp)
      intro f hf
      obtain ⟨p2, hp2, rfl⟩ := List.mem_map.mp hf
      apply pathFragment_no_semi
      rw [← hattrs] at hp2
      simpa using List.all_eq_true.mp hpall p2 hp2
    rw [hsplit]
    obtain ⟨m1, hrun, hinv⟩ := processPath_spec (assembleURI g)
      (joinSep ';' ((p :: rest).map specFragment)) (p :: rest) [] {} 0
      (by rw [← hattrs]; exact hpall) (by rw [← hattrs]; exact hpdist)
      (by simp) PathInv_nil
    exact ⟨m1, hrun, by simpa using hinv⟩

/-- C1: for every input accepted by the PKCS#11 URI grammar together with
the validation rules of the spec, `parse` succeeds and each standard
attribute accessor returns exactly the value that followed that
attribute's `=` in the input. -/
theorem claim_C1 (g : SpecURI) (hok : SpecURI.OK g = true) :
    ∃ m, parse (assembleURI g) = .ok m
      ∧ (∀ s : PathAttrName, ∀ v, (pattrText s, v) ∈ g.pathAttrs →
          slotGet s m = some v)
      ∧ (∀ q : QueryAttrName, ∀ qs v, g.queryAttrs = some qs →
          (qattrText q, v) ∈ qs → qslotGet q m = some v) := by
  obtain ⟨hpall, hpdist, hqpart⟩ := SpecURI_OK_parts hok
  have hnp : '?' ∉ joinSep ';' (g.pathAttrs.map specFragment) := pathPart_no_qmark hpall
  have hscheme : schemeChars.isPrefixOf (assembleURI g) = true := by
    cases hq : g.queryAttrs with
    | none =>
      rw [assembleURI_none hq]
      exact isPrefixOf_append _ _
    | some qs =>
      rw [assembleURI_some hq, List.append_assoc]
      exact isPrefixOf_append _ _
  obtain ⟨m1, hphase, pinv1, pinv2, pinv3⟩ := parsePathPhase_spec hpall hpdist
  cases hq : g.queryAttrs with
  | none =>
    refine ⟨m1, parse_eval_noquery hscheme hphase (queryIdx_assemble_none hq hnp), ?_, ?_⟩
    · intro s v hmem
      rw [pinv1 s]
      exact assocFind_of_mem_distinct hpdist hmem
    · intro q qs v hqs
      exact absurd hqs (by simp)
  | some qs =>
    obtain ⟨hqne, hqall, hqdist⟩ := hqpart qs hq
    have hqreg := queryRegion_assemble hq
    have hinvq : QueryInv [] m1 m1 := by
      refine ⟨fun s => rfl, fun q => ?_⟩
      rw [pinv3 q]
      rfl
    obtain ⟨p2, rest2, rfl⟩ : ∃ p2 rest2, qs = p2 :: rest2 := by
      cases qs with
      | nil => exact absurd rfl hqne
      | cons a b => exact ⟨a, b, rfl⟩
    have hqsplit : splitOnChar '&' (joinSep '&' ((p2 :: rest2).map specFragment))
        = (p2 :: rest2).map specFragment := by
      apply splitOnChar_joinSep (by simp)
      intro f hf
      obtain ⟨pq, hpq, rfl⟩ := List.mem_map.mp hf
      apply queryFragment_no_amp
      simpa using List.all_eq_true.mp hqall pq hpq
    obtain ⟨m2, hqrun, qinv1, qinv2⟩ := processQuery_spec (assembleURI g)
      (joinSep '&' ((p2 :: rest2).map specFragment)) (p2 :: rest2) [] m1 m1 0
      hqall hqdist (by simp) hinvq
    refine ⟨m2, ?_, ?_, ?_⟩
    · apply parse_eval_query hscheme hphase (queryIdx_assemble_some hq hnp)
      · rw [hqreg]
        exact joinSep_fragments_ne_nil '&' p2 rest2
      · rw [hqreg, hqsplit]
        simpa using hqrun
    · intro s v hmem
      rw [qinv1 s, pinv1 s]
      exact assocFind_of_mem_distinct hpdist hmem
    · intro q' qs' v hqs' hmem
      have hqq : qs' = p2 :: rest2 := by injection hqs' with h; exact h.symm
      subst hqq
      rw [qinv2 q']
      exact assocFind_of_mem_distinct_filter (qattrText_contains q')
        (by simpa using hqdist) hmem

/-! ### Cleanliness of parsed values (no literal space, no literal hash) -/

theorem valueClean_of_contains {v : List Char}
    (h1 : v.contains ' ' = false) (h2 : v.contains '#' = false) :
    valueClean v = true := by
  unfold valueClean
  rw [h1, h2]
  rfl

theorem typeValues_clean {v : List Char} (h : typeValues.contains v = true) :
    valueClean v = true := by
  have hm : v ∈ typeValues := by simpa using h
  simp only [typeValues, List.mem_cons, List.mem_singleton] at hm
  rcases hm with rfl | rfl | rfl | rfl | (rfl | hfalse)
  · decide
  · decide
  · decide
  · decide
  · decide
  · simp at hfalse

theorem isDigits_clean {v : List Char} (h : isDigits v = true) :
    valueClean v = true := by
  simp only [isDigits, Bool.and_eq_true, List.all_eq_true] at h
  have h1 : v.contains ' ' = false := by
    apply contains_eq_false_of_forall
    intro c hc hcc
    subst hcc
    exact absurd (h.2 ' ' hc) (by decide)
  have h2 : v.contains '#' = false := by
    apply contains_eq_false_of_forall
    intro c hc hcc
    subst hcc
    exact absurd (h.2 '#' hc) (by decide)
  exact valueClean_of_contains h1 h2

theorem libraryVersionMatch_chars {v : List Char} (h : libraryVersionMatch v = true) :
    ∀ c ∈ v, c.isDigit = true ∨ c = '.' := by
  intro c hc
  rw [← joinSep_splitOnChar '.' v] at hc
  unfold libraryVersionMatch at h
  rcases mem_of_mem_joinSep hc with h1 | ⟨f, hf, hcf⟩
  · exact Or.inr h1
  · left
    cases hx : splitOnChar '.' v with
    | nil => exact absurd hx (splitOnChar_ne_nil '.' v)
    | cons maj rest =>
      rw [hx] at h hf
      cases rest with
      | nil =>
        have hfm : f = maj := by simpa using hf
        subst hfm
        have hd : isDigits f = true := by simpa using h
        simp only [isDigits, Bool.and_eq_true, List.all_eq_true] at hd
        exact hd.2 c hcf
      | cons minor rest2 =>
        cases rest2 with
        | nil =>
          have hd : isDigits maj = true ∧ isDigits minor = true := by simpa using h
          rcases (by simpa using hf : f = maj ∨ f = minor) with rfl | rfl
          · simp only [isDigits, Bool.and_eq_true, List.all_eq_true] at hd
            exact hd.1.2 c hcf
          · simp only [isDigits, Bool.and_eq_true, List.all_eq_true] at hd
            exact hd.2.2 c hcf
        | cons z zs => simp at h

theorem libraryVersionMatch_clean {v : List Char} (h : libraryVersionMatch v = true) :
    valueClean v = true := by
  have hchars := libraryVersionMatch_chars h
  have h1 : v.contains ' ' = false := by
    apply contains_eq_false_of_forall
    intro c hc hcc
    subst hcc
    rcases hchars ' ' hc with hd | hd
    · exact absurd hd (by decide)
    · exact absurd hd (by decide)
  have h2 : v.contains '#' = false := by
    apply contains_eq_false_of_forall
    intro c hc hcc
    subst hcc
    rcases hchars '#' hc with hd | hd
    · exact absurd hd (by decide)
    · exact absurd hd (by decide)
  exact valueClean_of_contains h1 h2

theorem clean_of_common_branch {v : List Char}
    (h : (match common_validation v with
          | some e => (Except.error e : Except Violation Unit)
          | none => if v.contains '/' then .error .pathValueContainsSlash
                    else .ok ()) = .ok ()) :
    valueClean v = true := by
  cases hcv : common_validation v with
  | some e => rw [hcv] at h; simp at h
  | none =>
    obtain ⟨h1, h2⟩ := common_validation_eq_none_iff.mp hcv
    exact valueClean_of_contains h1 h2

theorem pattrValidate_clean {a : PK11PAttr} {v : List Char}
    (h : PK11PAttr.validate a v = .ok ()) : valueClean v = true := by
  cases a with
  | VAttr n => exact clean_of_common_branch h
  | std s =>
    cases s
    case type =>
      by_cases hc : typeValues.contains v = true
      · exact typeValues_clean hc
      · rw [show PK11PAttr.validate (.std .type) v
            = (if typeValues.contains v then .ok () else .error .invalidTypeValue)
            from rfl] at h
        rw [if_neg (by simpa using hc)] at h
        simp at h
    case library_version =>
      by_cases hc : libraryVersionMatch v = true
      · exact libraryVersionMatch_clean hc
      · rw [show PK11PAttr.validate (.std .library_version) v
            = (if libraryVersionMatch v then .ok () else .error .invalidLibraryVersion)
            from rfl] at h
        rw [if_neg (by simpa using hc)] at h
        simp at h
    case slot_id =>
      by_cases hc : slotIdMatch v = true
      · exact isDigits_clean hc
      · rw [show PK11PAttr.validate (.std .slot_id) v
            = (if slotIdMatch v then .ok () else .error .invalidSlotId)
            from rfl] at h
        rw [if_neg (by simpa using hc)] at h
        simp at h
    all_goals exact clean_of_common_branch h

theorem qattrValidate_clean {a : PK11QAttr} {v : List Char}
    (h : PK11QAttr.validate a v = .ok ()) : valueClean v = true := by
  unfold PK11QAttr.validate at h
  cases hcv : common_validation v with
  | some e => rw [hcv] at h; simp at h
  | none =>
    obtain ⟨h1, h2⟩ := common_validation_eq_none_iff.mp hcv
    exact valueClean_of_contains h1 h2

theorem mappingClean_empty : mappingClean {} := by
  refine ⟨fun s w hw => ?_, fun q w hw => ?_, fun n l hl => ?_⟩
  · cases s <;> simp [slotGet] at hw
  · cases q <;> simp [qslotGet] at hw
  · simp [PK11URIMapping.vendorGet, List.find?] at hl

theorem pattrAssign_clean {a : PK11PAttr} {v : List Char} {m m2 : PK11URIMapping}
    (hc : mappingClean m) (hv : valueClean v = true)
    (h : PK11PAttr.assign a v m = .ok m2) : mappingClean m2 := by
  obtain ⟨c1, c2, c3⟩ := hc
  cases a with
  | std s =>
    cases hg : slotGet s m with
    | some w => simp [PK11PAttr.assign, hg] at h
    | none =>
      simp only [PK11PAttr.assign, hg] at h
      have hm2 : m2 = slotSet s v m := by
        injection h with h2
        exact h2.symm
      subst hm2
      refine ⟨fun t w hw => ?_, fun q w hw => ?_, fun n l hl => ?_⟩
      · by_cases hts : t = s
        · subst hts
          rw [slotGet_slotSet_self] at hw
          injection hw with hw2
          rw [← hw2]
          exact hv
        · rw [slotGet_slotSet_ne hts] at hw
          exact c1 t w hw
      · rw [qslotGet_slotSet] at hw
        exact c2 q w hw
      · rw [vendorGet_slotSet] at hl
        exact c3 n l hl
  | VAttr n =>
    cases hg : m.vendorGet n with
    | some l => simp [PK11PAttr.assign, hg] at h
    | none =>
      simp only [PK11PAttr.assign, hg] at h
      have hm2 : m2 = { m with vendor := vendorInsert m.vendor n v } := by
        injection h with h2
        exact h2.symm
      subst hm2
      refine ⟨fun t w hw => ?_, fun q w hw => ?_, fun x l hl => ?_⟩
      · rw [slotGet_setVendor] at hw
        exact c1 t w hw
      · rw [qslotGet_setVendor] at hw
        exact c2 q w hw
      · by_cases hxn : x = n
        · subst hxn
          rw [vendorGet_insert_self hg] at hl
          injection hl with hl2
          rw [← hl2]
          intro w hwl
          have hwv : w = v := by simpa using hwl
          rw [hwv]
          exact hv
        · rw [vendorGet_insert_ne (fun hh => hxn hh.symm)] at hl
          exact c3 x l hl

theorem qattrAssign_clean {a : PK11QAttr} {v : List Char} {m m2 : PK11URIMapping}
    (hc : mappingClean m) (hv : valueClean v = true)
    (h : PK11QAttr.assign a v m = .ok m2) : mappingClean m2 := by
  obtain ⟨c1, c2, c3⟩ := hc
  cases a with
  | std s =>
    cases hg : qslotGet s m with
    | some w => simp [PK11QAttr.assign, hg] at h
    | none =>
      simp only [PK11QAttr.assign, hg] at h
      have hm2 : m2 = qslotSet s v m := by
        injection h with h2
        exact h2.symm
      subst hm2
      refine ⟨fun t w hw => ?_, fun q w hw => ?_, fun n l hl => ?_⟩
      · rw [slotGet_qslotSet] at hw
        exact c1 t w hw
      · by_cases hts : q = s
        · subst hts
          rw [qslotGet_qslotSet_self] at hw
          injection hw with hw2
          rw [← hw2]
          exact hv
        · rw [qslotGet_qslotSet_ne hts] at hw
          exact c2 q w hw
      · rw [vendorGet_qslotSet] at hl
        exact c3 n l hl
  | VAttr n =>
    simp only [PK11QAttr.assign] at h
    have hm2 : m2 = { m with vendor := vendorPush m.vendor n v } := by
      injection h with h2
      exact h2.symm
    subst hm2
    refine ⟨fun t w hw => ?_, fun q w hw => ?_, fun x l hl => ?_⟩
    · rw [slotGet_setVendor] at hw
      exact c1 t w hw
    · rw [qslotGet_setVendor] at hw
      exact c2 q w hw
    · by_cases hxn : x = n
      · subst hxn
        rw [vendorGet_push_self] at hl
        injection hl with hl2
        rw [← hl2]
        intro w hwl
        rcases List.mem_append.mp hwl with hin | hin
        · cases hg : m.vendorGet x with
          | none => rw [hg] at hin; simp at hin
          | some l0 =>
            rw [hg] at hin
            exact c3 x l0 hg w (by simpa using hin)
        · have hwv : w = v := by simpa using hin
          rw [hwv]
          exact hv
      · rw [vendorGet_push_ne m n v x (fun hh => hxn hh.symm)] at hl
        exact c3 x l hl

theorem pk11_pattr_assign_clean {frag : List Char} {m m2 : PK11URIMapping}
    (hc : mappingClean m) (h : pk11_pattr.assign frag m = .ok m2) :
    mappingClean m2 := by
  unfold pk11_pattr.assign at h
  cases hex : extractNameValue frag with
  | none => rw [hex] at h; simp at h
  | some p =>
    obtain ⟨nm, vl⟩ := p
    rw [hex] at h
    replace h : (match PK11PAttr.tryFrom nm with
        | Except.error e => Except.error e
        | Except.ok attr =>
          match attr.validate vl with
          | Except.error e => Except.error e
          | Except.ok _ => attr.assign vl m) = Except.ok m2 := h
    cases htf : PK11PAttr.tryFrom nm with
    | error e => rw [htf] at h; simp at h
    | ok attr =>
      rw [htf] at h
      replace h : (match attr.validate vl with
          | Except.error e => Except.error e
          | Except.ok _ => attr.assign vl m) = Except.ok m2 := h
      cases hval : PK11PAttr.validate attr vl with
      | error e => rw [hval] at h; simp at h
      | ok u =>
        cases u
        rw [hval] at h
        exact pattrAssign_clean hc (pattrValidate_clean hval) h

theorem pk11_qattr_assign_clean {frag : List Char} {m m2 : PK11URIMapping}
    (hc : mappingClean m) (h : pk11_qattr.assign frag m = .ok m2) :
    mappingClean m2 := by
  unfold pk11_qattr.assign at h
  cases hex : extractNameValue frag with
  | none => rw [hex] at h; simp at h
  | some p =>
    obtain ⟨nm, vl⟩ := p
    rw [hex] at h
    replace h : (match PK11QAttr.tryFrom nm with
        | Except.error e => Except.error e
        | Except.ok attr =>
          match attr.validate vl with
          | Except.error e => Except.error e
          | Except.ok _ => attr.assign vl m) = Except.ok m2 := h
    cases htf : PK11QAttr.tryFrom nm with
    | error e => rw [htf] at h; simp at h
    | ok attr =>
      rw [htf] at h
      replace h : (match attr.validate vl with
          | Except.error e => Except.error e
          | Except.ok _ => attr.assign vl m) = Except.ok m2 := h
      cases hval : PK11QAttr.validate attr vl with
      | error e => rw [hval] at h; simp at h
      | ok u =>
        cases u
        rw [hval] at h
        exact qattrAssign_clean hc (qattrValidate_clean hval) h

theorem processPath_clean (uri path : List Char) (frags : List (List Char)) :
    ∀ (k : Nat) (m m2 : PK11URIMapping), mappingClean m →
    processPath uri path k frags m = .ok m2 → mappingClean m2 := by
  induction frags with
  | nil =>
    intro k m m2 hc h
    injection h with h2
    rw [← h2]
    exact hc
  | cons f rest ih =>
    intro k m m2 hc h
    simp only [processPath] at h
    cases ha : pk11_pattr.assign f m with
    | error e => rw [ha] at h; simp at h
    | ok mm =>
      rw [ha] at h
      exact ih _ _ _ (pk11_pattr_assign_clean hc ha) h

theorem processQuery_clean (uri query : List Char) (frags : List (List Char)) :
    ∀ (k : Nat) (m m2 : PK11URIMapping), mappingClean m →
    processQuery uri query k frags m = .ok m2 → mappingClean m2 := by
  induction frags with
  | nil =>
    intro k m m2 hc h
    injection h with h2
    rw [← h2]
    exact hc
  | cons f rest ih =>
    intro k m m2 hc h
    simp only [processQuery] at h
    cases ha : pk11_qattr.assign f m with
    | error e => rw [ha] at h; simp at h
    | ok mm =>
      rw [ha] at h
      exact ih _ _ _ (pk11_qattr_assign_clean hc ha) h

/-- C2: a mapping whose values contain a literal space or a literal `#` is
never returned: every value reachable through a successfully parsed
mapping — standard path or query slot, or vendor list entry — is free of
both characters, so an input carrying such a value can only produce an
error. -/
theorem claim_C2 (uri : List Char) (m : PK11URIMapping)
    (h : parse uri = .ok m) : mappingClean m := by
  unfold parse at h
  by_cases hpre : schemeChars.isPrefixOf uri = true
  · rw [hpre, if_neg (by decide)] at h
    cases hp : parsePathPhase uri with
    | error e => rw [hp] at h; simp at h
    | ok m1 =>
      rw [hp] at h
      have hm1 : mappingClean m1 := by
        unfold parsePathPhase at hp
        by_cases hreg : pathRegion uri = []
        · rw [if_pos hreg] at hp
          injection hp with h2
          rw [← h2]
          exact mappingClean_empty
        · rw [if_neg hreg] at hp
          exact processPath_clean _ _ _ _ _ _ mappingClean_empty hp
      cases hqi : queryIdx uri with
      | none =>
        rw [hqi] at h
        injection h with h2
        rw [← h2]
        exact hm1
      | some q =>
        rw [hqi] at h
        replace h : (if uri.drop (q + 1) = [] then Except.ok m1
            else processQuery uri (uri.drop (q + 1)) 0
              (splitOnChar '&' (uri.drop (q + 1))) m1) = Except.ok m := h
        by_cases hqe : uri.drop (q + 1) = []
        · rw [if_pos hqe] at h
          injection h with h2
          rw [← h2]
          exact hm1
        · rw [if_neg hqe] at h
          exact processQuery_clean _ _ _ _ _ _ hm1 h
  · have hpre2 : schemeChars.isPrefixOf uri = false := by
      cases hx : schemeChars.isPrefixOf uri with
      | false => rfl
      | true => exact absurd hx hpre
    rw [hpre2, if_pos (by decide)] at h
    simp at h

/-! ### Duplicate policy, vendor accumulation, collisions, examples -/

/-- C3: a standard path or query slot is assigned only while empty and a
second occurrence of the same standard name — or of the same vendor name
in the path — fails with a duplicate-name violation naming the attribute;
`parse` surfaces both duplicate violations. -/
theorem claim_C3 :
    (∀ (s : PathAttrName) (v : List Char) (m : PK11URIMapping),
      slotGet s m = none → PK11PAttr.assign (.std s) v m = .ok (slotSet s v m))
    ∧ (∀ (s : PathAttrName) (v w : List Char) (m : PK11URIMapping),
      slotGet s m = some w →
        PK11PAttr.assign (.std s) v m = .error (.duplicatePathStandard (pattrText s)))
    ∧ (∀ (q : QueryAttrName) (v : List Char) (m : PK11URIMapping),
      qslotGet q m = none → PK11QAttr.assign (.std q) v m = .ok (qslotSet q v m))
    ∧ (∀ (q : QueryAttrName) (v w : List Char) (m : PK11URIMapping),
      qslotGet q m = some w →
        PK11QAttr.assign (.std q) v m = .error (.duplicateQueryStandard (qattrText q)))
    ∧ (∀ (n v : List Char) (m : PK11URIMapping),
      m.vendorGet n = none →
        PK11PAttr.assign (.VAttr n) v m
          = .ok { m with vendor := vendorInsert m.vendor n v })
    ∧ (∀ (n v : List Char) (l : List (List Char)) (m : PK11URIMapping),
      m.vendorGet n = some l →
        PK11PAttr.assign (.VAttr n) v m = .error (.duplicatePathVendor n))
    ∧ errViolation (parse "pkcs11:token=foo;token=bar".toList)
        = some (.duplicatePathStandard "token".toList)
    ∧ errViolation (parse "pkcs11:v=a;v=b".toList)
        = some (.duplicatePathVendor "v".toList) := by
  refine ⟨?_, ?_, ?_, ?_, ?_, ?_, by decide, by decide⟩
  · intro s v m h
    simp [PK11PAttr.assign, h]
  · intro s v w m h
    simp [PK11PAttr.assign, h]
  · intro q v m h
    simp [PK11QAttr.assign, h]
  · intro q v w m h
    simp [PK11QAttr.assign, h]
  · intro n v m h
    simp [PK11PAttr.assign, h]
  · intro n v l m h
    simp [PK11PAttr.assign, h]

theorem claim_C3_witness :
    PK11PAttr.assign (.std .token) "a".toList {} = .ok (slotSet .token "a".toList {})
    ∧ PK11PAttr.assign (.std .token) "b".toList { token := some "a".toList }
        = .error (.duplicatePathStandard "token".toList)
    ∧ PK11QAttr.assign (.std .pin_value) "x".toList {}
        = .ok (qslotSet .pin_value "x".toList {})
    ∧ PK11QAttr.assign (.std .pin_value) "y".toList { pin_value := some "x".toList }
        = .error (.duplicateQueryStandard "pin-value".toList)
    ∧ PK11PAttr.assign (.VAttr "v".toList) "a".toList {}
        = .ok { vendor := vendorInsert [] "v".toList "a".toList }
    ∧ PK11PAttr.assign (.VAttr "v".toList) "b".toList
          { vendor := [("v".toList, ["a".toList])] }
        = .error (.duplicatePathVendor "v".toList) :=
  ⟨claim_C3.1 .token "a".toList {} (by decide),
   claim_C3.2.1 .token "b".toList "a".toList { token := some "a".toList } (by decide),
   claim_C3.2.2.1 .pin_value "x".toList {} (by decide),
   claim_C3.2.2.2.1 .pin_value "y".toList "x".toList { pin_value := some "x".toList }
     (by decide),
   claim_C3.2.2.2.2.1 "v".toList "a".toList {} (by decide),
   claim_C3.2.2.2.2.2.1 "v".toList "b".toList ["a".toList]
     { vendor := [("v".toList, ["a".toList])] } (by decide)⟩

/-- C4: a vendor attribute in the query always appends its value to that
name's ordered value list, and the worked example accumulates `hello`
then `world` across path and query in encounter order. -/
theorem claim_C4 :
    (∀ (n v : List Char) (m : PK11URIMapping),
      PK11QAttr.assign (.VAttr n) v m
          = .ok { m with vendor := vendorPush m.vendor n v }
      ∧ PK11URIMapping.vendorGet { m with vendor := vendorPush m.vendor n v } n
          = some (((m.vendorGet n).getD []) ++ [v]))
    ∧ parse "pkcs11:vendor-attribute=hello?vendor-attribute=world".toList
        = .ok { vendor := [("vendor-attribute".toList,
                            ["hello".toList, "world".toList])] } := by
  refine ⟨?_, by decide⟩
  intro n v m
  exact ⟨rfl, vendorGet_push_self m n v⟩

/-- C5: a standard name of the other component is rejected as a naming
collision identifying the colliding component, never classified as
vendor-specific, both at the classifier and through `parse`. -/
theorem claim_C5 :
    (∀ n ∈ queryAttrTexts, VendorAttribute.tryFrom n = .error .queryNamingCollision)
    ∧ (∀ n ∈ pathAttrTexts, VendorAttribute.tryFrom n = .error .pathNamingCollision)
    ∧ (∀ n ∈ queryAttrTexts,
        errViolation (parse ("pkcs11:".toList ++ n ++ "=x".toList))
          = some .queryNamingCollision)
    ∧ (∀ n ∈ pathAttrTexts,
        errViolation (parse ("pkcs11:?".toList ++ n ++ "=x".toList))
          = some .pathNamingCollision)
    ∧ errViolation (parse "pkcs11:?token=foo".toList) = some .pathNamingCollision := by
  refine ⟨by decide, by decide, by decide, by decide, by decide⟩

theorem claim_C5_witness :
    "pin-value".toList ∈ queryAttrTexts
    ∧ VendorAttribute.tryFrom "pin-value".toList = .error .queryNamingCollision
    ∧ "token".toList ∈ pathAttrTexts
    ∧ errViolation (parse ("pkcs11:?".toList ++ "token".toList ++ "=x".toList))
        = some .pathNamingCollision :=
  ⟨by decide, claim_C5.1 "pin-value".toList (by decide), by decide,
   claim_C5.2.2.2.1 "token".toList (by decide)⟩

/-- C6 counterexample: on the spec example the reported span is not
`(14, 49)`, the range that would exactly cover
`Private key for Card Authentication`. -/
theorem claim_C6_counterexample : errSpan (parse exC6) ≠ some (14, 49) := by
  decide

/-- C6 (amended): the spec example fails with the space violation, but the
span is `(7, 49)`, covering the whole fragment
`object=Private key for Card Authentication`, not just its value. -/
theorem claim_C6 :
    parse exC6 = .error { pk11_uri := exC6, error_span := (7, 49),
                          violation := .valueContainsSpace }
    ∧ (exC6.drop 7).take 42
        = "object=Private key for Card Authentication".toList := by
  exact ⟨by decide, by decide⟩

/-- C8: the claim is the documented behaviour — with the digit class read
as the ABNF `DIGIT` (ASCII `0`-`9`) of the `1*DIGIT [ "." 1*DIGIT ]` rule
that the violation text of pk11_pattr.rs itself quotes, the
`library-version` validator accepts a value exactly when it is one or more
digits optionally followed by a dot and one or more digits; `1.` is
rejected and `1.0` is accepted through `parse`. The shipped
`LIBRARY_VERSION_REGEX` spells the class `\d`, which the regex crate by
default extends to every Unicode decimal digit, so the running code also
accepts values such as U+0663 that the quoted ABNF excludes: the code
contradicts its own violation text there, a defect of the source rather
than of the claim. -/
theorem claim_C8 :
    (∀ v : List Char,
      PK11PAttr.validate (.std .library_version) v = .ok ()
        ↔ specLibraryVersion v = true)
    ∧ errViolation (parse "pkcs11:library-version=1.".toList)
        = some .invalidLibraryVersion
    ∧ parse "pkcs11:library-version=1.0".toList
        = .ok { library_version := some "1.0".toList } := by
  refine ⟨?_, by decide, by decide⟩
  intro v
  rw [← libraryVersionMatch_eq_spec]
  constructor
  · intro h
    cases hc : libraryVersionMatch v with
    | true => rfl
    | false =>
      rw [show PK11PAttr.validate (.std .library_version) v
          = (if libraryVersionMatch v then .ok () else .error .invalidLibraryVersion)
          from rfl, hc] at h
      simp at h
  · intro h
    simp [PK11PAttr.validate, h]

/-- C9: a fragment's attribute name is the trimmed text before the first
`=` and its value the trimmed text after it, so values may themselves
contain `=`; `pkcs11:object=a=b` maps `object` to `a=b`. -/
theorem claim_C9 :
    (∀ name value : List Char, name.contains '=' = false →
        extractNameValue (name ++ '=' :: value)
          = some (trimChars name, trimChars value))
    ∧ parse "pkcs11:object=a=b".toList = .ok { object := some "a=b".toList } := by
  refine ⟨?_, by decide⟩
  intro name value h
  unfold extractNameValue
  rw [splitOnce_append_first (not_mem_chars_of_contains_eq_false h)]
  rfl

theorem claim_C9_witness :
    ("a".toList : List Char).contains '=' = false
    ∧ extractNameValue ("a".toList ++ '=' :: "b=c".toList)
        = some (trimChars "a".toList, trimChars "b=c".toList) :=
  ⟨by decide, claim_C9.1 "a".toList "b=c".toList (by decide)⟩

/-- C10: every standard attribute except `type`, `library-version` and
`slot-id`, and every vendor attribute, accepts an empty value; those
three reject it, both at the validator and through `parse`. -/
theorem claim_C10 :
    (∀ s : PathAttrName, ¬ s = .type → ¬ s = .library_version → ¬ s = .slot_id →
        PK11PAttr.validate (.std s) [] = .ok ())
    ∧ PK11PAttr.validate (.std .type) [] = .error .invalidTypeValue
    ∧ PK11PAttr.validate (.std .library_version) [] = .error .invalidLibraryVersion
    ∧ PK11PAttr.validate (.std .slot_id) [] = .error .invalidSlotId
    ∧ (∀ q : QueryAttrName, PK11QAttr.validate (.std q) [] = .ok ())
    ∧ (∀ n : List Char, PK11PAttr.validate (.VAttr n) [] = .ok ())
    ∧ (∀ n : List Char, PK11QAttr.validate (.VAttr n) [] = .ok ())
    ∧ parse "pkcs11:serial=".toList = .ok { serial := some [] }
    ∧ errViolation (parse "pkcs11:type=".toList) = some .invalidTypeValue
    ∧ errViolation (parse "pkcs11:library-version=".toList)
        = some .invalidLibraryVersion
    ∧ errViolation (parse "pkcs11:slot-id=".toList) = some .invalidSlotId := by
  refine ⟨?_, by decide, by decide, by decide, ?_, ?_, ?_,
    by decide, by decide, by decide, by decide⟩
  · intro s h1 h2 h3
    cases s
    case type => exact absurd rfl h1
    case library_version => exact absurd rfl h2
    case slot_id => exact absurd rfl h3
    all_goals rfl
  · intro q
    rfl
  · intro n
    rfl
  · intro n
    rfl

theorem claim_C10_witness :
    ¬ PathAttrName.serial = PathAttrName.type
    ∧ ¬ PathAttrName.serial = PathAttrName.library_version
    ∧ ¬ PathAttrName.serial = PathAttrName.slot_id
    ∧ PK11PAttr.validate (.std .serial) [] = .ok () :=
  ⟨by decide, by decide, by decide,
   claim_C10.1 .serial (by decide) (by decide) (by decide)⟩

theorem claim_C1_witness :
    SpecURI.OK c1Example = true
    ∧ (∃ m, parse (assembleURI c1Example) = .ok m
        ∧ (∀ s : PathAttrName, ∀ v, (pattrText s, v) ∈ c1Example.pathAttrs →
            slotGet s m = some v)
        ∧ (∀ q : QueryAttrName, ∀ qs v, c1Example.queryAttrs = some qs →
            (qattrText q, v) ∈ qs → qslotGet q m = some v)) :=
  ⟨by decide, claim_C1 c1Example (by decide)⟩

theorem claim_C2_witness :
    parse "pkcs11:object=my-pubkey".toList = .ok { object := some "my-pubkey".toList }
    ∧ mappingClean { object := some "my-pubkey".toList } :=
  ⟨by decide, claim_C2 "pkcs11:object=my-pubkey".toList
    { object := some "my-pubkey".toList } (by decide)⟩

/-! ### Misplaced-delimiter errors -/

theorem pattr_assign_error_of_tidy_empty {frag : List Char} (h : tidy frag = [])
    (m : PK11URIMapping) : pk11_pattr.assign frag m = .error .malformedComponent := by
  have hne : '=' ∉ frag := by
    intro hm
    have hmem : '=' ∈ tidy frag := List.mem_filter.mpr ⟨hm, by decide⟩
    rw [h] at hmem
    simp at hmem
  unfold pk11_pattr.assign extractNameValue
  rw [splitOnce_eq_none_of_not_mem hne]
  rfl

theorem qattr_assign_error_of_tidy_empty {frag : List Char} (h : tidy frag = [])
    (m : PK11URIMapping) : pk11_qattr.assign frag m = .error .malformedComponent := by
  have hne : '=' ∉ frag := by
    intro hm
    have hmem : '=' ∈ tidy frag := List.mem_filter.mpr ⟨hm, by decide⟩
    rw [h] at hmem
    simp at hmem
  unfold pk11_qattr.assign extractNameValue
  rw [splitOnce_eq_none_of_not_mem hne]
  rfl

theorem processPath_append_error (uri path : List Char)
    (pre : List (List Char)) (frag : List Char) (rest : List (List Char)) :
    ∀ (k : Nat) (m m1 : PK11URIMapping) (ve : Violation),
    processPath uri path k pre m = .ok m1 →
    pk11_pattr.assign frag m1 = .error ve →
    processPath uri path k (pre ++ frag :: rest) m
      = .error (pathErr uri path frag (k + pre.length) ve) := by
  induction pre with
  | nil =>
    intro k m m1 ve hpre hfail
    injection hpre with h2
    subst h2
    simp [processPath, hfail]
  | cons f fs ih =>
    intro k m m1 ve hpre hfail
    simp only [processPath] at hpre
    cases ha : pk11_pattr.assign f m with
    | error e => rw [ha] at hpre; simp at hpre
    | ok mm =>
      rw [ha] at hpre
      have hrec := ih (k + 1) mm m1 ve hpre hfail
      have harith : k + (f :: fs).length = k + 1 + fs.length := by
        simp only [List.length_cons]
        omega
      rw [harith]
      simp only [List.cons_append, processPath, ha]
      exact hrec

theorem processQuery_append_error (uri query : List Char)
    (pre : List (List Char)) (frag : List Char) (rest : List (List Char)) :
    ∀ (k : Nat) (m m1 : PK11URIMapping) (ve : Violation),
    processQuery uri query k pre m = .ok m1 →
    pk11_qattr.assign frag m1 = .error ve →
    processQuery uri query k (pre ++ frag :: rest) m
      = .error (queryErr uri query frag (k + pre.length) ve) := by
  induction pre with
  | nil =>
    intro k m m1 ve hpre hfail
    injection hpre with h2
    subst h2
    simp [processQuery, hfail]
  | cons f fs ih =>
    intro k m m1 ve hpre hfail
    simp only [processQuery] at hpre
    cases ha : pk11_qattr.assign f m with
    | error e => rw [ha] at hpre; simp at hpre
    | ok mm =>
      rw [ha] at hpre
      have hrec := ih (k + 1) mm m1 ve hpre hfail
      have harith : k + (f :: fs).length = k + 1 + fs.length := by
        simp only [List.length_cons]
        omega
      rw [harith]
      simp only [List.cons_append, processQuery, ha]
      exact hrec

theorem pathErr_empty (uri path frag : List Char) (h : tidy frag = [])
    (count : Nat) (ve : Violation) :
    pathErr uri path frag count ve
      = { pk11_uri := tidy uri,
          error_span :=
            (find_empty_attr_index (tidy path) count ';' + schemeChars.length,
             find_empty_attr_index (tidy path) count ';' + schemeChars.length),
          violation := .misplacedPathDelimiter } := by
  unfold pathErr
  rw [h]
  simp

theorem queryErr_empty (uri query frag : List Char) (h : tidy frag = [])
    (count : Nat) (ve : Violation) :
    queryErr uri query frag count ve
      = { pk11_uri := tidy uri,
          error_span :=
            (find_empty_attr_index (tidy query) count '&'
               + ((charIdx '?' (tidy uri)).getD 0 + 1),
             find_empty_attr_index (tidy query) count '&'
               + ((charIdx '?' (tidy uri)).getD 0 + 1)),
          violation := .misplacedQueryDelimiter } := by
  unfold queryErr
  rw [h]
  simp

/-- C7 counterexample: on `pkcs11:a=b;` the empty fragment sits at split
position 1, the parse fails with the misplaced-delimiter violation at
span `(10, 10)`, yet the tidied region holds no occurrence number 1
(0-based) of `;`, so the claimed start — the index of the N-th occurrence
— does not exist and the code used its last-index fallback instead. -/
theorem claim_C7_counterexample :
    errViolation (parse exC7) = some .misplacedPathDelimiter
    ∧ errSpan (parse exC7) = some (10, 10)
    ∧ nthMatchIdx (tidy "a=b;".toList) ';' 1 = none := by
  decide

/-- C7 (amended): when the first failing fragment of a region has an empty
tidied form, `parse` fails with a misplaced-delimiter violation and a
zero-length span whose start is the region's base offset (scheme length
for the path, one past the `?` for the query) plus the position of the
N-th (0-based) occurrence of the delimiter in the tidied region when at
least N+1 occurrences exist, and the index of the last character of the
tidied region otherwise. -/
theorem claim_C7 :
    (∀ (uri : List Char) (m1 : PK11URIMapping) (N : Nat) (fragN : List Char),
      schemeChars.isPrefixOf uri = true →
      pathRegion uri ≠ [] →
      tidy (pathRegion uri) ≠ [] →
      (splitOnChar ';' (pathRegion uri)).get? N = some fragN →
      tidy fragN = [] →
      processPath uri (pathRegion uri) 0
          ((splitOnChar ';' (pathRegion uri)).take N) {} = .ok m1 →
      parse uri = .error
        { pk11_uri := tidy uri,
          error_span :=
            (find_empty_attr_index (tidy (pathRegion uri)) N ';' + schemeChars.length,
             find_empty_attr_index (tidy (pathRegion uri)) N ';' + schemeChars.length),
          violation := .misplacedPathDelimiter })
    ∧ (∀ (uri : List Char) (m1 m2 : PK11URIMapping) (q N : Nat) (fragN : List Char),
      schemeChars.isPrefixOf uri = true →
      parsePathPhase uri = .ok m1 →
      queryIdx uri = some q →
      uri.drop (q + 1) ≠ [] →
      tidy (uri.drop (q + 1)) ≠ [] →
      (splitOnChar '&' (uri.drop (q + 1))).get? N = some fragN →
      tidy fragN = [] →
      processQuery uri (uri.drop (q + 1)) 0
          ((splitOnChar '&' (uri.drop (q + 1))).take N) m1 = .ok m2 →
      parse uri = .error
        { pk11_uri := tidy uri,
          error_span :=
            (find_empty_attr_index (tidy (uri.drop (q + 1))) N '&'
               + ((charIdx '?' (tidy uri)).getD 0 + 1),
             find_empty_attr_index (tidy (uri.drop (q + 1))) N '&'
               + ((charIdx '?' (tidy uri)).getD 0 + 1)),
          violation := .misplacedQueryDelimiter }) := by
  constructor
  · intro uri m1 N fragN hpre hreg htreg hget htempty hprefix
    obtain ⟨hNlt, hgetN⟩ := List.get?_eq_some.mp hget
    have hdecomp : splitOnChar ';' (pathRegion uri)
        = (splitOnChar ';' (pathRegion uri)).take N
          ++ fragN :: (splitOnChar ';' (pathRegion uri)).drop (N + 1) := by
      conv_lhs => rw [← List.take_append_drop N (splitOnChar ';' (pathRegion uri))]
      congr 1
      rw [List.drop_eq_getElem_cons hNlt]
      rw [← hgetN]
      simp [List.get_eq_getElem]
    have hfail : pk11_pattr.assign fragN m1 = .error .malformedComponent :=
      pattr_assign_error_of_tidy_empty htempty m1
    have hlen : ((splitOnChar ';' (pathRegion uri)).take N).length = N := by
      rw [List.length_take]
      omega
    have hrun := processPath_append_error uri (pathRegion uri)
      ((splitOnChar ';' (pathRegion uri)).take N) fragN
      ((splitOnChar ';' (pathRegion uri)).drop (N + 1)) 0 {} m1
      .malformedComponent hprefix hfail
    rw [hlen, Nat.zero_add] at hrun
    have hphase : parsePathPhase uri
        = .error (pathErr uri (pathRegion uri) fragN N .malformedComponent) := by
      unfold parsePathPhase
      rw [if_neg hreg, hdecomp]
      exact hrun
    unfold parse
    rw [hpre, if_neg (by decide), hphase]
    show (Except.error (pathErr uri (pathRegion uri) fragN N .malformedComponent)
        : Except PK11URIError PK11URIMapping) = _
    rw [pathErr_empty uri (pathRegion uri) fragN htempty N .malformedComponent]
  · intro uri m1 m2 q N fragN hpre hphase hqidx hqreg htreg hget htempty hprefix
    obtain ⟨hNlt, hgetN⟩ := List.get?_eq_some.mp hget
    have hdecomp : splitOnChar '&' (uri.drop (q + 1))
        = (splitOnChar '&' (uri.drop (q + 1))).take N
          ++ fragN :: (splitOnChar '&' (uri.drop (q + 1))).drop (N + 1) := by
      conv_lhs => rw [← List.take_append_drop N (splitOnChar '&' (uri.drop (q + 1)))]
      congr 1
      rw [List.drop_eq_getElem_cons hNlt]
      rw [← hgetN]
      simp [List.get_eq_getElem]
    have hfail : pk11_qattr.assign fragN m2 = .error .malformedComponent :=
      qattr_assign_error_of_tidy_empty htempty m2
    have hlen : ((splitOnChar '&' (uri.drop (q + 1))).take N).length = N := by
      rw [List.length_take]
      omega
    have hrun := processQuery_append_error uri (uri.drop (q + 1))
      ((splitOnChar '&' (uri.drop (q + 1))).take N) fragN
      ((splitOnChar '&' (uri.drop (q + 1))).drop (N + 1)) 0 m1 m2
      .malformedComponent hprefix hfail
    rw [hlen, Nat.zero_add] at hrun
    unfold parse
    rw [hpre, if_neg (by decide), hphase, hqidx]
    show (if uri.drop (q + 1) = [] then Except.ok m1
        else processQuery uri (uri.drop (q + 1)) 0
          (splitOnChar '&' (uri.drop (q + 1))) m1) = _
    rw [if_neg hqreg, hdecomp, hrun]
    rw [queryErr_empty uri (uri.drop (q + 1)) fragN htempty N .malformedComponent]

theorem claim_C7_witness :
    parse exC7b = .error { pk11_uri := exC7b, error_span := (11, 11),
                           violation := .misplacedPathDelimiter }
    ∧ parse exC7q = .error { pk11_uri := exC7q, error_span := (12, 12),
                             violation := .misplacedQueryDelimiter } :=
  ⟨claim_C7.1 exC7b { vendor := [("a".toList, ["b".toList])] } 1 []
     (by decide) (by decide) (by decide) (by decide) (by decide) (by decide),
   claim_C7.2 exC7q {} { vendor := [("a".toList, ["b".toList])] } 7 1 []
     (by decide) (by decide) (by decide) (by decide) (by decide) (by decide)
     (by decide) (by decide)⟩
